import Mathlib

/-!
Verification of the HTML-safe translation engine (`language_engine.py`) and the
serving layer (`app.py`) of the More House personalised-prospectus repository.

Python strings are modelled as `List Char`.  The regex-driven scanning functions
of the source are embedded as executable character scanners that follow the
exact backtracking behaviour of the concrete patterns used by the code
(leftmost match, alternation order, greedy / non-greedy repetition).  The
character classes `\w`, `\d`, `\s` are modelled on the ASCII fragment, which is
the fragment all claims and all configured constants live in.  Recursions that
advance by a matched span (rather than one character) take an explicit fuel
argument, always called with fuel at least the input length, so that every
definition is structurally recursive and kernel-reducible.
-/

/-- Whitespace as matched by Python's `str.strip` and the regex class `\s`
(ASCII fragment). -/
def pySpace (c : Char) : Bool :=
  c = ' ' || c = '\t' || c = '\n' || c = '\r' || c = '\x0b' || c = '\x0c'

/-- Word characters of the regex class `\w` (ASCII fragment). -/
def wordChar (c : Char) : Bool :=
  c.isAlphanum || c = '_'

/-- Python `s.strip()`: remove leading and trailing whitespace. -/
def pyStrip (s : List Char) : List Char :=
  ((s.dropWhile pySpace).reverse.dropWhile pySpace).reverse

/-- Python `s.lower()` (ASCII fragment). -/
def pyLower (s : List Char) : List Char :=
  s.map Char.toLower

/-- Case-insensitive prefix test: does `s` start with `pat` up to ASCII case? -/
def startsWithCI : List Char → List Char → Bool
  | [], _ => true
  | _ :: _, [] => false
  | p :: ps, c :: cs => (Char.toLower c = Char.toLower p) && startsWithCI ps cs

/-- The `LANG_MAP` alias table of `language_engine.py`. -/
def LANG_MAP : List (List Char × List Char) :=
  [("en".data, "en".data), ("en-gb".data, "en".data), ("en-us".data, "en".data),
   ("ar".data, "ar".data), ("ru".data, "ru".data), ("fr".data, "fr".data),
   ("es".data, "es".data), ("de".data, "de".data), ("it".data, "it".data),
   ("zh".data, "zh".data), ("zh-cn".data, "zh".data), ("zh-hans".data, "zh".data),
   ("zh-hant".data, "zh".data)]

/-- Association-list lookup mirroring `dict.get` on `LANG_MAP`. -/
def lookupLang (key : List Char) : List (List Char × List Char) → Option (List Char)
  | [] => none
  | p :: ps => if p.1 = key then some p.2 else lookupLang key ps

/-- The function `normalise_lang` of `language_engine.py`: lower-case and trim
the input, look it up in `LANG_MAP`, defaulting to `"en"`. -/
def normalise_lang (s : List Char) : List Char :=
  if s = [] then "en".data
  else (lookupLang (pyLower (pyStrip s)) LANG_MAP).getD "en".data

/-- The function `is_rtl` of `language_engine.py` (`RTL = {"ar"}`). -/
def is_rtl (lang : List Char) : Bool :=
  normalise_lang lang = "ar".data

/-- Environment of the DeepL client: whether an API key is configured, and the
provider's reply to one batched request.  A reply of `none` models any failure
of the call (network error, non-2xx status, timeout, unparsable body); a reply
of `some out` models a parsed `translations` array whose `i`-th entry carries
`some t` when it has a `"text"` field and `none` when it does not. -/
structure DeepLEnv where
  hasKey : Bool
  response : List (List Char) → List Char → Option (List (Option (List Char)))

/-- The function `_deepl_batch` of `language_engine.py`.  An out-of-range index
into a short `translations` array raises inside the `try` block and is caught,
which is modelled by the explicit length test. -/
def deepl_batch (env : DeepLEnv) (texts : List (List Char)) (lang0 : List Char) :
    List (List Char) :=
  if texts = [] then texts
  else if env.hasKey = false || normalise_lang lang0 = "en".data then texts
  else
    match env.response texts (normalise_lang lang0) with
    | none => texts
    | some out =>
        if texts.length ≤ out.length then
          (List.range texts.length).map
            (fun i => ((out.getD i none).getD (texts.getD i [])))
        else texts

/-- The function `should_skip_text` of `language_engine.py`. -/
def should_skip_text (text : List Char) : Bool :=
  if text = [] || pyStrip text = [] then true
  else if (pyStrip text).length ≤ 1 then true
  else if text.all (fun c => !wordChar c || c = '_') then true
  else if text.all (fun c => c.isDigit || c = '.' || c = ',' || c = ':' || c = '-' ||
      c = '+' || c = '(' || c = ')' || c = '%' || pySpace c) then true
  else false

/-- The brand tokens of `BRAND_TOKENS`, in the order in which the alternation
regex `TOKEN_RE` tries them: sorted by length, longest first (all lengths are
distinct, so the order is determined). -/
def brandTokens : List (List Char) :=
  ["Cognitive College".data, "More House".data, "PEN Reply".data,
   "PEN.ai".data, "PEN".data]

/-- Positional marker `__PENBRAND_i__` used by `_protect_brands`. -/
def brandMarker (i : Nat) : List Char :=
  "__PENBRAND_".data ++ (Nat.repr i).data ++ "__".data

/-- Positional marker `__PENPROT_i__` used by `_protect_brackets`. -/
def brackMarker (i : Nat) : List Char :=
  "__PENPROT_".data ++ (Nat.repr i).data ++ "__".data

/-- First brand token (in `TOKEN_RE` order) that is a prefix of `s`; this is
the alternative the regex engine commits to at the current position. -/
def matchBrand (s : List Char) : Option (List Char) :=
  brandTokens.find? (fun p => p.isPrefixOf s)

/-- Scanner of `TOKEN_RE.sub` in `_protect_brands`: walk the string; at each
position substitute the first matching brand token by its marker, recording the
matched text; `k` is the index the next marker will get.  `fuel` bounds the
recursion and is always called with at least the input length. -/
def protectBrandsF : Nat → List Char → Nat → List Char × List (List Char)
  | 0, s, _ => (s, [])
  | fuel + 1, s, k =>
    match s with
    | [] => ([], [])
    | c :: cs =>
      match matchBrand (c :: cs) with
      | some p =>
          let r := protectBrandsF fuel ((c :: cs).drop p.length) (k + 1)
          (brandMarker k ++ r.1, p :: r.2)
      | none =>
          let r := protectBrandsF fuel cs k
          (c :: r.1, r.2)

/-- The function `_protect_brands` of `language_engine.py`. -/
def protect_brands (s : List Char) : List Char × List (List Char) :=
  protectBrandsF s.length s 0

/-- Locate the first occurrence of the two-character closer `c0 c1` (the
non-greedy `.*?` of `BRACK_RE` with `re.S`); returns the span before it and the
remainder after it. -/
def findClose (c0 c1 : Char) : List Char → Option (List Char × List Char)
  | [] => none
  | [_] => none
  | c :: d :: rest =>
      if c = c0 ∧ d = c1 then some ([], rest)
      else (findClose c0 c1 (d :: rest)).map (fun pr => (c :: pr.1, pr.2))

/-- One attempt of `BRACK_RE` at the current position: the alternation tries
a brace span first, then a double-bracket span; returns the matched span and
the remainder. -/
def matchBracket (s : List Char) : Option (List Char × List Char) :=
  match s with
  | '\x7b' :: '\x7b' :: rest =>
      (findClose '\x7d' '\x7d' rest).map
        (fun pr => ('\x7b' :: '\x7b' :: (pr.1 ++ ['\x7d', '\x7d']), pr.2))
  | '[' :: '[' :: rest =>
      (findClose ']' ']' rest).map
        (fun pr => ('[' :: '[' :: (pr.1 ++ [']', ']']), pr.2))
  | _ => none

/-- Scanner of `BRACK_RE.sub` in `_protect_brackets` (fuelled like
`protectBrandsF`). -/
def protectBracketsF : Nat → List Char → Nat → List Char × List (List Char)
  | 0, s, _ => (s, [])
  | fuel + 1, s, k =>
    match s with
    | [] => ([], [])
    | c :: cs =>
      match matchBracket (c :: cs) with
      | some pr =>
          let r := protectBracketsF fuel pr.2 (k + 1)
          (brackMarker k ++ r.1, pr.1 :: r.2)
      | none =>
          let r := protectBracketsF fuel cs k
          (c :: r.1, r.2)

/-- The function `_protect_brackets` of `language_engine.py`. -/
def protect_brackets (s : List Char) : List Char × List (List Char) :=
  protectBracketsF s.length s 0

/-- Python `str.replace`: replace every non-overlapping occurrence of `pat`,
left to right (`fuel` as above; a genuinely empty pattern never occurs here
because markers are non-empty, and is treated as no-op). -/
def replaceAllF (pat rep : List Char) : Nat → List Char → List Char
  | 0, s => s
  | fuel + 1, s =>
    match s with
    | [] => []
    | c :: cs =>
      if pat ≠ [] ∧ pat.isPrefixOf (c :: cs) then
        rep ++ replaceAllF pat rep fuel ((c :: cs).drop pat.length)
      else c :: replaceAllF pat rep fuel cs

/-- Python `s.replace(pat, rep)`. -/
def replaceAll (s pat rep : List Char) : List Char :=
  replaceAllF pat rep s.length s

/-- The function `_restore_brands` of `language_engine.py`: for each bag entry
in order, globally replace the corresponding marker by the saved text. -/
def restore_brands (s : List Char) (bag : List (List Char)) : List Char :=
  (bag.enum).foldl (fun acc iv => replaceAll acc (brandMarker iv.1) iv.2) s

/-- The function `_restore_brackets` of `language_engine.py`. -/
def restore_brackets (s : List Char) (bag : List (List Char)) : List Char :=
  (bag.enum).foldl (fun acc iv => replaceAll acc (brackMarker iv.1) iv.2) s

/-- First match of the tag pattern `<[^>]+>` in `s` (the pattern used by
`re.split` in `translate_html_fragment`): returns the gap before the match,
the matched tag, and the remainder. -/
def findTag : List Char → Option (List Char × List Char × List Char)
  | [] => none
  | c :: cs =>
    if c = '<' then
      let body := cs.takeWhile (fun d => d != '>')
      if body ≠ [] ∧ (cs.drop body.length).head? = some '>' then
        some ([], '<' :: (body ++ ['>']), cs.drop (body.length + 1))
      else (findTag cs).map (fun t => (c :: t.1, t.2.1, t.2.2))
    else (findTag cs).map (fun t => (c :: t.1, t.2.1, t.2.2))

/-- Fuelled scanner of `re.split(r"(<[^>]+>)", html)`: the result alternates
gaps and matched tags and always keeps every character of the input. -/
def splitTagsF : Nat → List Char → List (List Char)
  | 0, s => [s]
  | fuel + 1, s =>
    match findTag s with
    | none => [s]
    | some t => t.1 :: t.2.1 :: splitTagsF fuel t.2.2

/-- The token split of `translate_html_fragment` (line 127 of the source). -/
def splitTags (html : List Char) : List (List Char) :=
  splitTagsF html.length html

/-- The helper `is_opening(tagname, t)` of `translate_html_fragment`:
`re.match(rf"<\s*{tagname}\b", t, re.I)` and `t` does not start with `</`. -/
def is_opening (name t : List Char) : Bool :=
  (match t with
   | '<' :: rest =>
      let r2 := rest.dropWhile pySpace
      startsWithCI name r2 &&
        (match (r2.drop name.length).head? with
         | none => true
         | some d => !wordChar d)
   | _ => false) && !("</".data.isPrefixOf t)

/-- The helper `is_closing(tagname, t)`:
`re.match(rf"<\s*/\s*{tagname}\b", t, re.I)`. -/
def is_closing (name t : List Char) : Bool :=
  match t with
  | '<' :: rest =>
    match rest.dropWhile pySpace with
    | '/' :: r3 =>
      let r4 := r3.dropWhile pySpace
      startsWithCI name r4 &&
        (match (r4.drop name.length).head? with
         | none => true
         | some d => !wordChar d)
    | _ => false
  | _ => false

/-- State produced by the token loop of `translate_html_fragment`
(lines 128-168): the output pieces, the queued translation jobs, their output
positions, and their brand / bracket bags. -/
structure SpliceOut where
  out : List (List Char)
  jobs : List (List Char)
  idx : List Nat
  brandbags : List (List (List Char))
  brackbags : List (List (List Char))

/-- The token loop of `translate_html_fragment`: `pos` is the number of output
pieces already emitted (`len(out)` in the source).  A piece starting with `<`
updates the script / style context (opening sets, closing clears, the closing
test is applied after the opening test); text in context or skipped text
passes through; any other text is protected and queued, with an empty
placeholder emitted. -/
def loopParts (inScript inStyle : Bool) (pos : Nat) : List (List Char) → SpliceOut
  | [] => ⟨[], [], [], [], []⟩
  | p :: ps =>
    if p.head? = some '<' then
      let ns := if is_closing "script".data p then false
                else if is_opening "script".data p then true else inScript
      let nt := if is_closing "style".data p then false
                else if is_opening "style".data p then true else inStyle
      let r := loopParts ns nt (pos + 1) ps
      ⟨p :: r.out, r.jobs, r.idx, r.brandbags, r.brackbags⟩
    else if inScript || inStyle then
      let r := loopParts inScript inStyle (pos + 1) ps
      ⟨p :: r.out, r.jobs, r.idx, r.brandbags, r.brackbags⟩
    else if should_skip_text p then
      let r := loopParts inScript inStyle (pos + 1) ps
      ⟨p :: r.out, r.jobs, r.idx, r.brandbags, r.brackbags⟩
    else
      let pb := protect_brands p
      let kb := protect_brackets pb.1
      let r := loopParts inScript inStyle (pos + 1) ps
      ⟨[] :: r.out, kb.1 :: r.jobs, pos :: r.idx, pb.2 :: r.brandbags, kb.2 :: r.brackbags⟩

/-- The write-back loop of lines 171-176: for each translated segment restore
brackets then brands and store it at its recorded output position. -/
def applySplice : List (List Char) → List Nat → List (List (List Char)) →
    List (List (List Char)) → List (List Char) → List (List Char)
  | out, _, _, _, [] => out
  | out, i :: idxs, b :: bbs, kk :: kbs, s :: tr =>
      applySplice (out.set i (restore_brands (restore_brackets s kk) b)) idxs bbs kbs tr
  | out, _, _, _, _ :: _ => out

/-- Generic model of `re.sub(pattern, repl, s)` for the post-processing
patterns: `att s` attempts a match at the current position, returning the
replacement text to emit and the remainder after the match; on failure the
scanner copies one character and moves on.  `fuel` is always at least the
input length. -/
def scanSubF (att : List Char → Option (List Char × List Char)) :
    Nat → List Char → List Char
  | 0, s => s
  | fuel + 1, s =>
    match att s with
    | some er => er.1 ++ scanSubF att fuel er.2
    | none =>
      match s with
      | [] => []
      | c :: cs => c :: scanSubF att fuel cs

/-- Run a substitution scanner over the whole string. -/
def scanSub (att : List Char → Option (List Char × List Char)) (s : List Char) :
    List Char :=
  scanSubF att s.length s

/-- Does `s` begin with `<html` (case-insensitively) followed by a word
boundary, as in the pattern `<html\b`? -/
def htmlBAt (s : List Char) : Bool :=
  startsWithCI "<html".data s &&
    (match (s.drop 5).head? with
     | none => true
     | some d => !wordChar d)

/-- The test `re.search(r"<html\b", html2, re.I)`. -/
def searchHtmlOpen : List Char → Bool
  | [] => false
  | c :: cs => htmlBAt (c :: cs) || searchHtmlOpen cs

/-- Case-insensitive search for a literal pattern (`re.search` of a pattern
without metacharacters, such as `</head>`). -/
def searchCI (pat : List Char) : List Char → Bool
  | [] => false
  | c :: cs => startsWithCI pat (c :: cs) || searchCI pat cs

/-- Skip to just past the first `"` (the regex tail `[^"]*"`): `none` when no
quote follows. -/
def afterQuote (u : List Char) : Option (List Char) :=
  match u.dropWhile (fun d => d != '"') with
  | _ :: r => some r
  | [] => none

/-- Attempt of `\s+lang="[^"]*"` at the current position (case-insensitive):
a non-empty whitespace run, then `lang="`, then everything up to the next
quote. -/
def spacesLangQuote (t : List Char) : Option (List Char) :=
  if t.takeWhile pySpace = [] then none
  else if startsWithCI "lang=\"".data (t.drop (t.takeWhile pySpace).length) then
    afterQuote (t.drop ((t.takeWhile pySpace).length + 6))
  else none

/-- The lazy part `[^>]*?\s+lang="[^"]*"` of the lang-stripping pattern: try
the tail at the current position first (lazy repetition prefers the shortest
run), otherwise consume one non-`>` character of the run. -/
def langScan : List Char → Option (List Char × List Char)
  | [] => none
  | c :: cs =>
    match spacesLangQuote (c :: cs) with
    | some rest => some ([], rest)
    | none =>
      if c = '>' then none
      else (langScan cs).map (fun pr => (c :: pr.1, pr.2))

/-- One attempt of `re.sub(r'(<html\b[^>]*?)\s+lang="[^"]*"', r"\1", ...)`:
on success emit group 1 (the matched `<html` and the lazy run, in original
case) and resume after the closing quote. -/
def tryLangStrip (s : List Char) : Option (List Char × List Char) :=
  if htmlBAt s then
    (langScan (s.drop 5)).map (fun pr => (s.take 5 ++ pr.1, pr.2))
  else none

/-- One attempt of `re.sub(r"(<html\b)([^>]*?)>", rf'\1{ins}\2>', ...)`: used
both to insert ` lang="…"` and to insert ` dir="rtl"` right after `<html`. -/
def tryHtmlInsert (ins : List Char) (s : List Char) : Option (List Char × List Char) :=
  if htmlBAt s then
    if ((s.drop 5).drop ((s.drop 5).takeWhile (fun d => d != '>')).length).head? = some '>' then
      some (s.take 5 ++ ins ++ (s.drop 5).takeWhile (fun d => d != '>') ++ ['>'],
        (s.drop 5).drop (((s.drop 5).takeWhile (fun d => d != '>')).length + 1))
    else none
  else none

/-- The greedy part `[^>]*\bdir="[^"]*"` of the dir patterns: the greedy
repetition prefers the longest run, so the scanner prefers a deeper match
(`later`) over a match at the current position (`here`).  `prev` is the
character before the current position, used for the `\b` test. -/
def dirScanGreedy (prev : Char) : List Char → Option (List Char × List Char)
  | [] => none
  | c :: cs =>
    match (if c = '>' then none else (dirScanGreedy c cs).map (fun pr => (c :: pr.1, pr.2))) with
    | some pr => some pr
    | none =>
      if !wordChar prev && startsWithCI "dir=\"".data (c :: cs) then
        (afterQuote ((c :: cs).drop 5)).map (fun r => (([] : List Char), r))
      else none

/-- One attempt of `re.sub(r'(<html\b[^>]*\b)dir="[^"]*"', …)`: emit group 1
followed by `tl` (`dir="rtl"` for the replacement form, nothing for the
stripping form) and resume after the closing quote of the old value. -/
def tryDirRe (tl : List Char) (s : List Char) : Option (List Char × List Char) :=
  if htmlBAt s then
    (dirScanGreedy (s.getD 4 'l') (s.drop 5)).map
      (fun pr => (s.take 5 ++ pr.1 ++ tl, pr.2))
  else none

/-- Scan for `\bdir=` within a run of non-`>` characters (tail of the search
pattern `<html[^>]*\bdir=`). -/
def dirSearchScan (prev : Char) : List Char → Bool
  | [] => false
  | c :: cs =>
    (!wordChar prev && startsWithCI "dir=".data (c :: cs)) ||
      (c != '>' && dirSearchScan c cs)

/-- The test `re.search(r'<html[^>]*\bdir=', html2, re.I)` (note: no word
boundary after `html` in this one). -/
def searchHtmlDir : List Char → Bool
  | [] => false
  | c :: cs =>
    (startsWithCI "<html".data (c :: cs) &&
      dirSearchScan ((c :: cs).getD 4 'l') ((c :: cs).drop 5)) ||
    searchHtmlDir cs

/-- Case-insensitive `re.sub(pat, rep, s, count=1)` for a literal pattern. -/
def replaceFirstCI (pat rep : List Char) : List Char → List Char
  | [] => []
  | c :: cs =>
    if startsWithCI pat (c :: cs) then rep ++ (c :: cs).drop pat.length
    else c :: replaceFirstCI pat rep cs

/-- The inserted attribute text ` lang="…"` of line 184. -/
def langAttrIns (lang : List Char) : List Char :=
  " lang=\"".data ++ lang ++ "\"".data

/-- The diagnostic marker `<meta name="penai-lang" content="…">` of line 196. -/
def metaTag (lang : List Char) : List Char :=
  "<meta name=\"penai-lang\" content=\"".data ++ lang ++ "\">".data

/-- Lines 181-196 of `translate_html_fragment`: ensure `<html lang="…">`,
handle `dir` according to `is_rtl`, and insert the diagnostic meta marker
before the first `</head>`. -/
def postProcess (lang : List Char) (html2 : List Char) : List Char :=
  let h1 :=
    if searchHtmlOpen html2 then
      let a := scanSub tryLangStrip html2
      let b := scanSub (tryHtmlInsert (langAttrIns lang)) a
      if is_rtl lang then
        if searchHtmlDir b then scanSub (tryDirRe "dir=\"rtl\"".data) b
        else scanSub (tryHtmlInsert " dir=\"rtl\"".data) b
      else scanSub (tryDirRe []) b
    else html2
  if searchCI "</head>".data h1 then
    replaceFirstCI "</head>".data (metaTag lang ++ "</head>".data) h1
  else h1

/-- The token-splitting, queueing, translation and write-back stage of
`translate_html_fragment` (everything before the post-processing): the final
`out` list of line 178. -/
def spliceStage (env : DeepLEnv) (html lang : List Char) : List (List Char) :=
  let st := loopParts false false 0 (splitTags html)
  if st.jobs = [] then st.out
  else applySplice st.out st.idx st.brandbags st.brackbags (deepl_batch env st.jobs lang)

/-- The function `translate_html_fragment` of `language_engine.py`. -/
def translate_html_fragment (env : DeepLEnv) (html lang0 : List Char) : List Char :=
  let lang := normalise_lang lang0
  if lang = "en".data ∨ html = [] ∨ pyStrip html = [] then html
  else postProcess lang (spliceStage env html lang).flatten

/-- Write-back loop with every partial operation made explicit: `none` when a
position list, bag list and translation list fall out of step or a write is
out of range — the situations in which the Python loop would raise. -/
def applySpliceChecked : List (List Char) → List Nat → List (List (List Char)) →
    List (List (List Char)) → List (List Char) → Option (List (List Char))
  | out, _, _, _, [] => some out
  | out, i :: idxs, b :: bbs, kk :: kbs, s :: tr =>
      if i < out.length then
        applySpliceChecked (out.set i (restore_brands (restore_brackets s kk) b))
          idxs bbs kbs tr
      else none
  | _, _, _, _, _ :: _ => none

/-- `translate_html_fragment` with the checked write-back loop: `none` exactly
when the original code would raise an uncaught exception. -/
def translate_html_fragment_checked (env : DeepLEnv) (html lang0 : List Char) :
    Option (List Char) :=
  let lang := normalise_lang lang0
  if lang = "en".data ∨ html = [] ∨ pyStrip html = [] then some html
  else
    let st := loopParts false false 0 (splitTags html)
    let o := if st.jobs = [] then some st.out
      else applySpliceChecked st.out st.idx st.brandbags st.brackbags
        (deepl_batch env st.jobs lang)
    o.map (fun out2 => postProcess lang out2.flatten)

/-- The body-selection logic of `_translate_response` in `app.py` (lines
150-159): serve the translated document when it is non-empty after stripping,
otherwise fall back to the original document. -/
def respondBody (env : DeepLEnv) (original lang0 : List Char) : List Char :=
  let translated := translate_html_fragment env original lang0
  if translated ≠ [] ∧ pyStrip translated ≠ [] then translated else original

/-- The skip conditions exactly as the specification words them: empty or
all-whitespace text; trimmed length at most one; trimmed text consisting only
of non-word / punctuation characters; text composed solely of digits, the
punctuation `. , : - + ( ) %` and whitespace. -/
def shouldSkipSpec (text : List Char) : Bool :=
  text = [] || pyStrip text = [] || (pyStrip text).length ≤ 1 ||
  (pyStrip text).all (fun c => !wordChar c || c = '_') ||
  text.all (fun c => c.isDigit || c = '.' || c = ',' || c = ':' || c = '-' ||
      c = '+' || c = '(' || c = ')' || c = '%' || pySpace c)

/-- The script / style context seen by each token of the stream: entry `i` is
the value of `in_script or in_style` at the moment the loop of
`translate_html_fragment` examines token `i`. -/
def ctxFlags (inScript inStyle : Bool) : List (List Char) → List Bool
  | [] => []
  | p :: ps =>
    if p.head? = some '<' then
      let ns := if is_closing "script".data p then false
                else if is_opening "script".data p then true else inScript
      let nt := if is_closing "style".data p then false
                else if is_opening "style".data p then true else inStyle
      (inScript || inStyle) :: ctxFlags ns nt ps
    else (inScript || inStyle) :: ctxFlags inScript inStyle ps

/-- Ordinary attribute-value characters: word characters that are not
whitespace and whose lower-case form is none of the delimiters the
post-processing regexes react to.  Realistic `lang` / `dir` values such as
`en`, `fr`, `ltr` consist of such characters. -/
def attrChar (c : Char) : Bool :=
  wordChar c && !pySpace c && c.toLower != '<' && c.toLower != '=' &&
  c.toLower != '"' && c.toLower != '>'

/-! ## Basic lemmas about the tokenizer -/

theorem findTag_spec (s : List Char) : ∀ pre tag rest,
    findTag s = some (pre, tag, rest) →
    pre ++ tag ++ rest = s ∧ rest.length < s.length := by
  induction s with
  | nil => intro pre tag rest h; simp [findTag] at h
  | cons c cs ih =>
    intro pre tag rest h
    simp only [findTag] at h
    split at h
    · split at h
      · rename_i hc hb
        obtain ⟨hb1, hb2⟩ := hb
        simp only [Option.some.injEq, Prod.mk.injEq] at h
        obtain ⟨hpre, htag, hrest⟩ := h
        set w := cs.takeWhile (fun d => d != '>') with hw
        have hsplit : w ++ cs.drop w.length = cs := by
          obtain ⟨t, ht⟩ := List.takeWhile_prefix (l := cs) (p := fun d => d != '>')
          rw [← hw] at ht
          rw [← ht, List.drop_left]
        have hgt : cs.drop w.length = '>' :: cs.drop (w.length + 1) := by
          cases hd : cs.drop w.length with
          | nil => rw [hd] at hb2; simp at hb2
          | cons d t =>
            rw [hd] at hb2
            simp only [List.head?_cons, Option.some.injEq] at hb2
            have htail : t = cs.drop (w.length + 1) := by
              rw [← List.tail_drop, hd]
              rfl
            rw [hb2] at hd ⊢
            rw [← htail]
        constructor
        · subst hpre htag hrest hc
          simp only [List.nil_append, List.cons_append, List.append_assoc]
          congr 1
          rw [← hsplit, hgt]
          simp
        · subst hrest
          simp only [List.length_cons, List.length_drop]
          omega
      · rename_i hc _
        cases hft : findTag cs with
        | none => rw [hft] at h; simp at h
        | some t =>
          rw [hft] at h
          obtain ⟨p2, tg2, r2⟩ := t
          simp only [Option.map_some', Option.some.injEq, Prod.mk.injEq] at h
          obtain ⟨hpre, htag, hrest⟩ := h
          obtain ⟨ihe, ihl⟩ := ih p2 tg2 r2 hft
          subst hpre htag hrest
          constructor
          · simp only [List.cons_append, List.append_assoc] at ihe ⊢
            rw [ihe]
          · simp only [List.length_cons]; omega
    · rename_i hc
      cases hft : findTag cs with
      | none => rw [hft] at h; simp at h
      | some t =>
        rw [hft] at h
        obtain ⟨p2, tg2, r2⟩ := t
        simp only [Option.map_some', Option.some.injEq, Prod.mk.injEq] at h
        obtain ⟨hpre, htag, hrest⟩ := h
        obtain ⟨ihe, ihl⟩ := ih p2 tg2 r2 hft
        subst hpre htag hrest
        constructor
        · simp only [List.cons_append, List.append_assoc] at ihe ⊢
          rw [ihe]
        · simp only [List.length_cons]; omega

theorem splitTagsF_flatten : ∀ fuel s, s.length ≤ fuel →
    (splitTagsF fuel s).flatten = s := by
  intro fuel
  induction fuel with
  | zero =>
    intro s hs
    have : s = [] := List.eq_nil_of_length_eq_zero (Nat.le_zero.mp hs)
    subst this; simp [splitTagsF]
  | succ fuel ih =>
    intro s hs
    simp only [splitTagsF]
    cases hft : findTag s with
    | none => simp
    | some t =>
      obtain ⟨pre, tag, rest⟩ := t
      obtain ⟨he, hl⟩ := findTag_spec s pre tag rest hft
      simp only [List.flatten_cons]
      rw [ih rest (by omega)]
      simpa [List.append_assoc] using he

/-- C1: splitting an HTML string on the tag pattern `<[^>]+>` into alternating
text and tag tokens and concatenating all tokens in original order reproduces
the input string exactly. -/
theorem C1_tokenization_lossless (html : List Char) :
    (splitTags html).flatten = html :=
  splitTagsF_flatten html.length html (Nat.le_refl _)

theorem translate_identity_of_fast_path (env : DeepLEnv) (html lang : List Char)
    (h : normalise_lang lang = "en".data ∨ html = [] ∨ pyStrip html = []) :
    translate_html_fragment env html lang = html := by
  unfold translate_html_fragment
  exact if_pos h

/-- C4: `translate_html_fragment` returns the document unchanged whenever the
requested language normalises to the base language `en` or the document is
empty or whitespace-only. -/
theorem C4_base_language_identity (env : DeepLEnv) (html lang : List Char)
    (h : normalise_lang lang = "en".data ∨ html = [] ∨ pyStrip html = []) :
    translate_html_fragment env html lang = html :=
  translate_identity_of_fast_path env html lang h

/-- Witness for C4 at a concrete document and the base language. -/
theorem C4_base_language_identity_witness :
    normalise_lang "en".data = "en".data ∧
    translate_html_fragment ⟨true, fun _ _ => some []⟩ "<p>Hello there</p>".data "en".data
      = "<p>Hello there</p>".data :=
  ⟨by decide, C4_base_language_identity _ _ _ (Or.inl (by decide))⟩

/-- C10: a language string that is not a key of `LANG_MAP` after trimming and
lower-casing normalises to `en`, so `translate_html_fragment` returns the
document completely unchanged: no text translated, no `lang`/`dir` attribute
set, no meta marker inserted. -/
theorem C10_unrecognized_language_identity (env : DeepLEnv) (html lang : List Char)
    (h : lookupLang (pyLower (pyStrip lang)) LANG_MAP = none) :
    translate_html_fragment env html lang = html := by
  apply translate_identity_of_fast_path
  left
  unfold normalise_lang
  split
  · rfl
  · rw [h]; rfl

/-- Witness for C10: the unsupported code `ja` leaves a translatable document
untouched even with a configured, always-answering provider. -/
theorem C10_unrecognized_language_identity_witness :
    lookupLang (pyLower (pyStrip "ja".data)) LANG_MAP = none ∧
    translate_html_fragment ⟨true, fun ts _ => some (ts.map (fun _ => some "X".data))⟩
      "<p>Hello there</p>".data "ja".data = "<p>Hello there</p>".data :=
  ⟨by decide, C10_unrecognized_language_identity _ _ _ (by decide)⟩

theorem deepl_batch_empty (env : DeepLEnv) (lang : List Char) :
    deepl_batch env [] lang = [] := by
  simp [deepl_batch]

theorem deepl_batch_no_key (env : DeepLEnv) (texts : List (List Char)) (lang : List Char)
    (h : env.hasKey = false) : deepl_batch env texts lang = texts := by
  unfold deepl_batch
  split
  · rfl
  · rw [if_pos]
    simp [h]

theorem deepl_batch_base_lang (env : DeepLEnv) (texts : List (List Char)) (lang : List Char)
    (h : normalise_lang lang = "en".data) : deepl_batch env texts lang = texts := by
  unfold deepl_batch
  split
  · rfl
  · rw [if_pos]
    simp [h]

theorem deepl_batch_fail_open (env : DeepLEnv) (texts : List (List Char)) (lang : List Char)
    (h : env.response texts (normalise_lang lang) = none) :
    deepl_batch env texts lang = texts := by
  unfold deepl_batch
  split
  · rfl
  · split
    · rfl
    · rw [h]

theorem deepl_batch_length (env : DeepLEnv) (texts : List (List Char)) (lang : List Char) :
    (deepl_batch env texts lang).length = texts.length := by
  unfold deepl_batch
  split
  · rfl
  · split
    · rfl
    · split
      · rfl
      · split
        · simp
        · rfl

theorem deepl_batch_get (env : DeepLEnv) (texts : List (List Char)) (lang : List Char)
    (i : Nat) (hi : i < texts.length) :
    (deepl_batch env texts lang).getD i [] = texts.getD i [] ∨
    ∃ out, env.response texts (normalise_lang lang) = some out ∧
      texts.length ≤ out.length ∧
      (deepl_batch env texts lang).getD i [] = (out.getD i none).getD (texts.getD i []) := by
  unfold deepl_batch
  split
  · exact Or.inl rfl
  · split
    · exact Or.inl rfl
    · rename_i hne hkey
      cases hresp : env.response texts (normalise_lang lang) with
      | none => exact Or.inl rfl
      | some out =>
        dsimp only
        by_cases hlen : texts.length ≤ out.length
        · refine Or.inr ⟨out, rfl, hlen, ?_⟩
          rw [if_pos hlen]
          simp [List.getD, List.get?_eq_getElem?, List.getElem?_map, List.getElem?_range hi]
        · rw [if_neg hlen]
          exact Or.inl rfl

/-- C3: the batch client `_deepl_batch` is the identity on the empty batch,
when the target normalises to the base language, when no credential is
configured, and when the provider call fails; and in every case it returns a
list of exactly the input length whose `i`-th element corresponds to the
`i`-th input (the provider's `i`-th translation, the input text when the
`text` field is absent, or the input text itself on any identity path). -/
theorem C3_batch_client_contract (env : DeepLEnv) (texts : List (List Char))
    (lang : List Char) :
    (deepl_batch env texts lang).length = texts.length ∧
    (texts = [] → deepl_batch env texts lang = texts) ∧
    (normalise_lang lang = "en".data → deepl_batch env texts lang = texts) ∧
    (env.hasKey = false → deepl_batch env texts lang = texts) ∧
    (env.response texts (normalise_lang lang) = none → deepl_batch env texts lang = texts) ∧
    (∀ i, i < texts.length →
      (deepl_batch env texts lang).getD i [] = texts.getD i [] ∨
      ∃ out, env.response texts (normalise_lang lang) = some out ∧
        texts.length ≤ out.length ∧
        (deepl_batch env texts lang).getD i [] = (out.getD i none).getD (texts.getD i [])) :=
  ⟨deepl_batch_length env texts lang,
   fun h => by subst h; exact deepl_batch_empty env lang,
   deepl_batch_base_lang env texts lang,
   deepl_batch_no_key env texts lang,
   deepl_batch_fail_open env texts lang,
   fun i hi => deepl_batch_get env texts lang i hi⟩

/-- Witness for C3 at a concrete batch: a failing provider is the identity,
and lengths always match. -/
theorem C3_batch_client_contract_witness :
    deepl_batch ⟨true, fun _ _ => none⟩ ["Hello".data, "World".data] "fr".data
      = ["Hello".data, "World".data] ∧
    (deepl_batch ⟨true, fun _ _ => none⟩ ["Hello".data, "World".data] "fr".data).length = 2 := by
  have h := C3_batch_client_contract ⟨true, fun _ _ => none⟩
    ["Hello".data, "World".data] "fr".data
  refine ⟨h.2.2.2.2.1 rfl, ?_⟩
  rw [h.1]
  rfl

theorem mem_of_mem_pyStrip {c : Char} {s : List Char} (h : c ∈ pyStrip s) : c ∈ s := by
  unfold pyStrip at h
  rw [List.mem_reverse] at h
  have h2 := (List.dropWhile_sublist (l := (s.dropWhile pySpace).reverse) (p := pySpace)).mem h
  rw [List.mem_reverse] at h2
  exact (List.dropWhile_sublist (l := s) (p := pySpace)).mem h2

theorem mem_pyStrip_or_space {c : Char} {s : List Char} (h : c ∈ s) :
    pySpace c = true ∨ c ∈ pyStrip s := by
  rw [← List.takeWhile_append_dropWhile (p := pySpace) (l := s), List.mem_append] at h
  rcases h with h | h
  · exact Or.inl (List.mem_takeWhile_imp h)
  · rw [← List.mem_reverse,
      ← List.takeWhile_append_dropWhile (p := pySpace) (l := (s.dropWhile pySpace).reverse),
      List.mem_append] at h
    rcases h with h | h
    · exact Or.inl (List.mem_takeWhile_imp h)
    · exact Or.inr (by rw [pyStrip, List.mem_reverse]; exact h)

theorem all_pyStrip_of_space_sat {p : Char → Bool}
    (hp : ∀ c, pySpace c = true → p c = true) (text : List Char) :
    text.all p = (pyStrip text).all p := by
  rw [Bool.eq_iff_iff]
  simp only [List.all_eq_true]
  constructor
  · intro h c hc; exact h c (mem_of_mem_pyStrip hc)
  · intro h c hc
    rcases mem_pyStrip_or_space hc with hsp | hm
    · exact hp c hsp
    · exact h c hm

theorem if_chain_or (a b c d : Bool) :
    (if a = true then true else if b = true then true else if c = true then true
     else if d = true then true else false) = (a || b || c || d) := by
  cases a <;> cases b <;> cases c <;> cases d <;> rfl

/-- C8: `should_skip_text` returns true exactly under the conditions the
specification lists; in particular it skips `"12.5%"` and keeps `"Hello"`. -/
theorem C8_skip_classifier :
    (∀ text : List Char, should_skip_text text = shouldSkipSpec text) ∧
    should_skip_text "12.5%".data = true ∧
    should_skip_text "Hello".data = false := by
  refine ⟨?_, by decide, by decide⟩
  intro text
  have hp : ∀ c, pySpace c = true → (!wordChar c || c = '_') = true := by
    intro c hc
    simp only [pySpace, Bool.or_eq_true, decide_eq_true_eq] at hc
    rcases hc with ((((h | h) | h) | h) | h) | h <;> subst h <;> decide
  have hall := all_pyStrip_of_space_sat hp text
  unfold should_skip_text shouldSkipSpec
  rw [← hall]
  by_cases hC : (pyStrip text).length ≤ 1 <;>
    cases hA : decide (text = []) <;> cases hB : decide (pyStrip text = []) <;>
    cases hD : text.all (fun c => !wordChar c || c = '_') <;>
    cases hE : (text.all fun c => c.isDigit || c = '.' || c = ',' || c = ':' || c = '-' ||
        c = '+' || c = '(' || c = ')' || c = '%' || pySpace c) <;>
    simp [hA, hB, hC, hD, hE]

/-- Counterexample to C9 as stated: a provider that returns the empty string
as the translation of the only segment; the empty string is spliced into the
document and the original segment text `Hello world` does not appear in the
output. -/
theorem C9_counterexample :
    translate_html_fragment ⟨true, fun _ _ => some [some []]⟩
      "<p>Hello world</p>".data "fr".data = "<p></p>".data ∧
    ¬ "Hello world".data <:+: translate_html_fragment ⟨true, fun _ _ => some [some []]⟩
        "<p>Hello world</p>".data "fr".data := by
  constructor <;> decide

/-- C9 (amended): a segment whose provider reply lacks the `text` field falls
back to the segment's source text, and the empty / whitespace fallback lives
at document level: when the whole translated document strips to nothing, the
serving layer delivers the original document. -/
theorem C9_empty_translation_fallback :
    (∀ env original lang, pyStrip (translate_html_fragment env original lang) = [] →
      respondBody env original lang = original) ∧
    (∀ (env : DeepLEnv) texts lang i out, texts ≠ [] →
      env.hasKey = true → normalise_lang lang ≠ "en".data →
      env.response texts (normalise_lang lang) = some out →
      texts.length ≤ out.length → i < texts.length → out.getD i none = none →
      (deepl_batch env texts lang).getD i [] = texts.getD i []) := by
  constructor
  · intro env original lang h
    unfold respondBody
    rw [if_neg]
    intro hcon
    exact hcon.2 h
  · intro env texts lang i out hne hkey hlang hresp hlen hi hmiss
    unfold deepl_batch
    rw [if_neg hne, if_neg (by simp [hkey, hlang]), hresp]
    dsimp only
    rw [if_pos hlen]
    simp only [List.getD, List.get?_eq_getElem?] at hmiss
    simp [List.getD, List.get?_eq_getElem?, List.getElem?_map, List.getElem?_range hi, hmiss]

/-- Witness for C9 (amended): an empty whole-document translation is served as
the original, and a missing `text` field yields the source segment. -/
theorem C9_empty_translation_fallback_witness :
    respondBody ⟨true, fun _ _ => some [some []]⟩ "Hello world".data "fr".data
      = "Hello world".data ∧
    deepl_batch ⟨true, fun _ _ => some [none]⟩ ["Hi there".data] "fr".data
      = ["Hi there".data] := by
  have h := C9_empty_translation_fallback
  constructor
  · exact h.1 ⟨true, fun _ _ => some [some []]⟩ "Hello world".data "fr".data (by decide)
  · have h2 := h.2 ⟨true, fun _ _ => some [none]⟩ ["Hi there".data] "fr".data 0 [none]
      (by decide) rfl (by decide) rfl (by decide) (by decide) rfl
    have hlen := deepl_batch_length ⟨true, fun _ _ => some [none]⟩ ["Hi there".data] "fr".data
    cases hd : deepl_batch ⟨true, fun _ _ => some [none]⟩ ["Hi there".data] "fr".data with
    | nil => rw [hd] at hlen; simp at hlen
    | cons x xs =>
      rw [hd] at hlen h2
      simp only [List.length_cons, List.length_nil] at hlen
      have hxs : xs = [] := List.eq_nil_of_length_eq_zero (by omega)
      subst hxs
      have hx : x = "Hi there".data := by simpa [List.getD] using h2
      rw [hx]

theorem loopParts_out_length (ps : List (List Char)) : ∀ inS inSt pos,
    (loopParts inS inSt pos ps).out.length = ps.length := by
  induction ps with
  | nil => intro inS inSt pos; rfl
  | cons p ps ih =>
    intro inS inSt pos
    unfold loopParts
    split
    · simp [ih]
    · split
      · simp [ih]
      · split
        · simp [ih]
        · simp [ih]

theorem loopParts_idx_ge (ps : List (List Char)) : ∀ inS inSt pos j,
    j ∈ (loopParts inS inSt pos ps).idx → pos ≤ j := by
  induction ps with
  | nil => intro inS inSt pos j h; simp [loopParts] at h
  | cons p ps ih =>
    intro inS inSt pos j h
    unfold loopParts at h
    split at h
    · exact Nat.le_of_succ_le (ih _ _ _ _ h)
    · split at h
      · exact Nat.le_of_succ_le (ih _ _ _ _ h)
      · split at h
        · exact Nat.le_of_succ_le (ih _ _ _ _ h)
        · simp only [List.mem_cons] at h
          rcases h with h | h
          · omega
          · exact Nat.le_of_succ_le (ih _ _ _ _ h)

theorem loopParts_script_passthrough (ps : List (List Char)) : ∀ inS inSt pos i,
    (ctxFlags inS inSt ps).getD i false = true →
    (ps.getD i []).head? ≠ some '<' →
    (loopParts inS inSt pos ps).out.getD i [] = ps.getD i [] ∧
    (pos + i) ∉ (loopParts inS inSt pos ps).idx := by
  induction ps with
  | nil => intro inS inSt pos i hflag _; simp [ctxFlags, List.getD] at hflag
  | cons p ps ih =>
    intro inS inSt pos i hflag htext
    cases i with
    | zero =>
      simp only [List.getD, List.get?_eq_getElem?, List.getElem?_cons_zero,
        Option.getD_some] at htext
      have hhead : ¬ p.head? = some '<' := htext
      have hctx : (inS || inSt) = true := by
        unfold ctxFlags at hflag
        rw [if_neg hhead] at hflag
        simpa [List.getD] using hflag
      unfold loopParts
      rw [if_neg hhead, if_pos hctx]
      constructor
      · simp [List.getD]
      · simp only [Nat.add_zero]
        intro hmem
        have := loopParts_idx_ge ps _ _ (pos + 1) pos hmem
        omega
    | succ k =>
      have hflag2 : ∀ ns nt, ctxFlags inS inSt (p :: ps) =
          (inS || inSt) :: ctxFlags ns nt ps → (ctxFlags ns nt ps).getD k false = true := by
        intro ns nt he
        rw [he] at hflag
        simpa [List.getD] using hflag
      have htext2 : (ps.getD k []).head? ≠ some '<' := by
        simpa [List.getD] using htext
      unfold loopParts
      by_cases hhead : p.head? = some '<'
      · rw [if_pos hhead]
        unfold ctxFlags at hflag
        rw [if_pos hhead] at hflag
        have hflag3 : (ctxFlags
            (if is_closing "script".data p = true then false
             else if is_opening "script".data p = true then true else inS)
            (if is_closing "style".data p = true then false
             else if is_opening "style".data p = true then true else inSt) ps).getD k false
            = true := by
          simpa [List.getD] using hflag
        have hr := ih _ _ (pos + 1) k hflag3 htext2
        constructor
        · simpa [List.getD] using hr.1
        · have : pos + (k + 1) = (pos + 1) + k := by omega
          rw [this]
          simpa using hr.2
      · rw [if_neg hhead]
        unfold ctxFlags at hflag
        rw [if_neg hhead] at hflag
        have hflag3 : (ctxFlags inS inSt ps).getD k false = true := by
          simpa [List.getD] using hflag
        have hr := ih inS inSt (pos + 1) k hflag3 htext2
        have harith : pos + (k + 1) = (pos + 1) + k := by omega
        split
        · constructor
          · simpa [List.getD] using hr.1
          · rw [harith]; simpa using hr.2
        · split
          · constructor
            · simpa [List.getD] using hr.1
            · rw [harith]; simpa using hr.2
          · constructor
            · simpa [List.getD] using hr.1
            · simp only [List.mem_cons]
              intro hmem
              rcases hmem with hmem | hmem
              · omega
              · rw [harith] at hmem; exact hr.2 hmem

theorem applySplice_not_mem (tr : List (List Char)) :
    ∀ out idxs bbs kbs (i : Nat), i ∉ idxs →
    (applySplice out idxs bbs kbs tr).getD i [] = out.getD i [] := by
  induction tr with
  | nil =>
    intro out idxs bbs kbs i _
    cases idxs with
    | nil => rfl
    | cons j idxs => cases bbs with
      | nil => rfl
      | cons b bbs => cases kbs <;> rfl
  | cons s tr ih =>
    intro out idxs bbs kbs i hmem
    cases idxs with
    | nil => rfl
    | cons j idxs =>
      cases bbs with
      | nil => rfl
      | cons b bbs =>
        cases kbs with
        | nil => rfl
        | cons kk kbs =>
          simp only [List.mem_cons] at hmem
          push_neg at hmem
          unfold applySplice
          rw [ih _ _ _ _ i hmem.2]
          simp only [List.getD, List.get?_eq_getElem?]
          rw [List.getElem?_set_ne (by omega)]

/-- Counterexample to C2 as stated: in this document the `<html lang="x>` tag
carries an unbalanced quote, so the lang-stripping regex of the post-processing
phase reaches across the `<script>` tag and deletes part of the script body,
although that text token sits between `<script>` and `</script>` and was never
sent to translation. -/
theorem C2_counterexample :
    (splitTags "<html lang=\"x><script>var q = \"hello\";</script>".data).getD 4 []
      = "var q = \"hello\";".data ∧
    (ctxFlags false false
      (splitTags "<html lang=\"x><script>var q = \"hello\";</script>".data)).getD 4 false
      = true ∧
    ¬ "var q = \"hello\";".data <:+: translate_html_fragment ⟨false, fun _ _ => none⟩
        "<html lang=\"x><script>var q = \"hello\";</script>".data "fr".data := by
  refine ⟨by decide, by decide, by decide⟩

/-- C2 (amended): a text token that the loop sees with the script or style
flag set is never queued for translation and survives the splice stage
byte-identically; only the later lang / dir post-processing regexes can touch
it (and only for documents whose tags carry unbalanced quotes). -/
theorem C2_script_style_immunity (env : DeepLEnv) (html lang : List Char) (i : Nat)
    (hflag : (ctxFlags false false (splitTags html)).getD i false = true)
    (htext : ((splitTags html).getD i []).head? ≠ some '<') :
    (spliceStage env html lang).getD i [] = (splitTags html).getD i [] ∧
    i ∉ (loopParts false false 0 (splitTags html)).idx := by
  have h := loopParts_script_passthrough (splitTags html) false false 0 i hflag htext
  rw [Nat.zero_add] at h
  refine ⟨?_, h.2⟩
  simp only [spliceStage]
  split
  · exact h.1
  · rw [applySplice_not_mem _ _ _ _ _ i h.2]
    exact h.1

/-- Witness for C2 (amended) at the counterexample document: the script body
is intact in the splice stage and was not queued. -/
theorem C2_script_style_immunity_witness :
    (spliceStage ⟨false, fun _ _ => none⟩
        "<html lang=\"x><script>var q = \"hello\";</script>".data "fr".data).getD 4 []
      = (splitTags "<html lang=\"x><script>var q = \"hello\";</script>".data).getD 4 [] ∧
    4 ∉ (loopParts false false 0
        (splitTags "<html lang=\"x><script>var q = \"hello\";</script>".data)).idx :=
  C2_script_style_immunity ⟨false, fun _ _ => none⟩
    "<html lang=\"x><script>var q = \"hello\";</script>".data "fr".data 4
    (by decide) (by decide)

theorem loopParts_lists_length (ps : List (List Char)) : ∀ inS inSt pos,
    (loopParts inS inSt pos ps).idx.length = (loopParts inS inSt pos ps).jobs.length ∧
    (loopParts inS inSt pos ps).brandbags.length = (loopParts inS inSt pos ps).jobs.length ∧
    (loopParts inS inSt pos ps).brackbags.length = (loopParts inS inSt pos ps).jobs.length := by
  induction ps with
  | nil => intro inS inSt pos; exact ⟨rfl, rfl, rfl⟩
  | cons p ps ih =>
    intro inS inSt pos
    unfold loopParts
    split
    · exact ih _ _ _
    · split
      · exact ih _ _ _
      · split
        · exact ih _ _ _
        · obtain ⟨h1, h2, h3⟩ := ih inS inSt (pos + 1)
          exact ⟨by simpa using h1, by simpa using h2, by simpa using h3⟩

theorem loopParts_idx_lt (ps : List (List Char)) : ∀ inS inSt pos j,
    j ∈ (loopParts inS inSt pos ps).idx → j < pos + ps.length := by
  induction ps with
  | nil => intro inS inSt pos j h; simp [loopParts] at h
  | cons p ps ih =>
    intro inS inSt pos j h
    unfold loopParts at h
    split at h
    · have := ih _ _ _ _ h; simp only [List.length_cons]; omega
    · split at h
      · have := ih _ _ _ _ h; simp only [List.length_cons]; omega
      · split at h
        · have := ih _ _ _ _ h; simp only [List.length_cons]; omega
        · simp only [List.mem_cons] at h
          rcases h with h | h
          · simp only [List.length_cons]; omega
          · have := ih _ _ _ _ h; simp only [List.length_cons]; omega

theorem applySpliceChecked_eq (tr : List (List Char)) :
    ∀ out idxs bbs kbs, idxs.length = tr.length → bbs.length = tr.length →
    kbs.length = tr.length → (∀ j ∈ idxs, j < out.length) →
    applySpliceChecked out idxs bbs kbs tr = some (applySplice out idxs bbs kbs tr) := by
  induction tr with
  | nil =>
    intro out idxs bbs kbs h1 h2 h3 _
    rw [List.length_nil] at h1 h2 h3
    rw [List.eq_nil_of_length_eq_zero h1, List.eq_nil_of_length_eq_zero h2,
      List.eq_nil_of_length_eq_zero h3]
    rfl
  | cons s tr ih =>
    intro out idxs bbs kbs h1 h2 h3 hb
    cases idxs with
    | nil => simp at h1
    | cons j idxs =>
      cases bbs with
      | nil => simp at h2
      | cons b bbs =>
        cases kbs with
        | nil => simp at h3
        | cons kk kbs =>
          simp only [List.length_cons, Nat.add_right_cancel_iff] at h1 h2 h3
          have hj : j < out.length := hb j (List.mem_cons_self j idxs)
          unfold applySpliceChecked applySplice
          rw [if_pos hj]
          apply ih
          · exact h1
          · exact h2
          · exact h3
          · intro q hq
            rw [List.length_set]
            exact hb q (List.mem_cons_of_mem j hq)

/-- C6: `translate_html_fragment` is total: the variant in which every
partial operation of the write-back loop is made explicit (`none` exactly
where the Python code would raise) always succeeds, returning the same
document.  Any provider failure is already absorbed inside `_deepl_batch`
(`deepl_batch_fail_open`), which returns the source texts. -/
theorem C6_translate_total (env : DeepLEnv) (html lang : List Char) :
    translate_html_fragment_checked env html lang
      = some (translate_html_fragment env html lang) := by
  simp only [translate_html_fragment_checked, translate_html_fragment, spliceStage]
  split
  · rfl
  · split
    · rfl
    · rw [applySpliceChecked_eq]
      · rfl
      · rw [deepl_batch_length]
        exact (loopParts_lists_length _ _ _ _).1
      · rw [deepl_batch_length]
        exact (loopParts_lists_length _ _ _ _).2.1
      · rw [deepl_batch_length]
        exact (loopParts_lists_length _ _ _ _).2.2
      · intro j hj
        rw [loopParts_out_length]
        have := loopParts_idx_lt (splitTags html) false false 0 j hj
        omega

/-! ## Generic lemmas about the substitution scanner -/

theorem scanSubF_nil (att : List Char → Option (List Char × List Char))
    (hatt : ∀ s e r, att s = some (e, r) → r.length < s.length) :
    ∀ f, scanSubF att f [] = [] := by
  intro f
  cases f with
  | zero => rfl
  | succ f =>
    simp only [scanSubF]
    cases hm : att [] with
    | none => rfl
    | some er =>
      have := hatt [] er.1 er.2 (by rw [hm])
      simp at this
  
theorem scanSubF_fuel_irrel (att : List Char → Option (List Char × List Char))
    (hatt : ∀ s e r, att s = some (e, r) → r.length < s.length) :
    ∀ f1 f2 s, s.length ≤ f1 → s.length ≤ f2 →
    scanSubF att f1 s = scanSubF att f2 s := by
  intro f1
  induction f1 with
  | zero =>
    intro f2 s h1 _
    have hs : s = [] := List.eq_nil_of_length_eq_zero (Nat.le_zero.mp h1)
    subst hs
    rw [scanSubF_nil att hatt, scanSubF_nil att hatt]
  | succ f1 ih =>
    intro f2 s h1 h2
    cases s with
    | nil => rw [scanSubF_nil att hatt, scanSubF_nil att hatt]
    | cons c cs =>
      cases f2 with
      | zero => simp at h2
      | succ f2 =>
        simp only [scanSubF]
        cases hm : att (c :: cs) with
        | none =>
          dsimp only
          have : cs.length ≤ f1 := by simp at h1; omega
          have h2b : cs.length ≤ f2 := by simp at h2; omega
          rw [ih f2 cs this h2b]
        | some er =>
          dsimp only
          have hlt := hatt (c :: cs) er.1 er.2 (by rw [hm])
          have ha : er.2.length ≤ f1 := by simp at h1 hlt; omega
          have hb : er.2.length ≤ f2 := by simp at h2 hlt; omega
          rw [ih f2 er.2 ha hb]

theorem scanSub_match (att : List Char → Option (List Char × List Char))
    (hatt : ∀ s e r, att s = some (e, r) → r.length < s.length)
    (s e r : List Char) (h : att s = some (e, r)) :
    scanSub att s = e ++ scanSub att r := by
  cases s with
  | nil =>
    have := hatt [] e r h
    simp at this
  | cons c cs =>
    have hlt := hatt (c :: cs) e r h
    unfold scanSub
    simp only [List.length_cons, scanSubF, h]
    congr 1
    exact scanSubF_fuel_irrel att hatt cs.length r.length r
      (by simp at hlt; omega) (Nat.le_refl _)

theorem scanSub_none_cons (att : List Char → Option (List Char × List Char))
    (c : Char) (cs : List Char) (h : att (c :: cs) = none) :
    scanSub att (c :: cs) = c :: scanSub att cs := by
  unfold scanSub
  simp only [List.length_cons, scanSubF, h]

theorem scanSub_id_of_none (att : List Char → Option (List Char × List Char)) :
    ∀ s, (∀ t, t <:+ s → t ≠ [] → att t = none) → scanSub att s = s := by
  intro s
  induction s with
  | nil => intro _; rfl
  | cons c cs ih =>
    intro h
    rw [scanSub_none_cons att c cs (h (c :: cs) (List.suffix_refl _) (by simp))]
    rw [ih (fun t ht hne => h t (ht.trans (List.suffix_cons c cs)) hne)]

/-! ## Suffix decomposition helpers -/

theorem suffix_cons_cases {t : List Char} {c : Char} {cs : List Char}
    (h : t <:+ (c :: cs)) : t = c :: cs ∨ t <:+ cs := by
  obtain ⟨w, hw⟩ := h
  cases w with
  | nil => exact Or.inl hw
  | cons a w' =>
    right
    refine ⟨w', ?_⟩
    simpa using congrArg List.tail hw

theorem suffix_short_of_append {t A B : List Char} (h : t <:+ (A ++ B))
    (hl : t.length ≤ B.length) : t <:+ B := by
  obtain ⟨w, hw⟩ := h
  have hwl : A.length ≤ w.length := by
    have := congrArg List.length hw
    simp at this
    omega
  have hwtake : w.take A.length = A := by
    have h2 := congrArg (List.take A.length) hw
    rw [List.take_append_of_le_length hwl, List.take_left] at h2
    exact h2
  refine ⟨w.drop A.length, ?_⟩
  have hwsplit : w = A ++ w.drop A.length := by
    conv_lhs => rw [← List.take_append_drop A.length w]
    rw [hwtake]
  rw [hwsplit, List.append_assoc] at hw
  exact (List.append_cancel_left hw)

theorem suffix_split_of_append {t A B : List Char} (h : t <:+ (A ++ B))
    (hl : B.length < t.length) :
    ∃ ta, ta ≠ [] ∧ ta <:+ A ∧ t = ta ++ B := by
  obtain ⟨w, hw⟩ := h
  have hwl : w.length ≤ A.length := by
    have := congrArg List.length hw
    simp at this
    omega
  have hwtake : (A ++ B).take w.length = w := by
    have h2 := congrArg (List.take w.length) hw
    rw [List.take_left] at h2
    exact h2.symm
  rw [List.take_append_of_le_length hwl] at hwtake
  refine ⟨A.drop w.length, ?_, List.drop_suffix _ _, ?_⟩
  · intro hnil
    have := congrArg List.length hnil
    simp at this
    have := congrArg List.length hw
    simp at this
    omega
  · have hsplit : A = w ++ A.drop w.length := by
      conv_lhs => rw [← List.take_append_drop w.length A]
      rw [hwtake]
    rw [hsplit, List.append_assoc] at hw
    exact (List.append_cancel_left hw)

theorem startsWithCI_false_head {p : Char} {ps : List Char} {c : Char} {cs : List Char}
    (h : ¬ c.toLower = p.toLower) : startsWithCI (p :: ps) (c :: cs) = false := by
  simp [startsWithCI, h]

theorem startsWithCI_length {p s : List Char} (h : startsWithCI p s = true) :
    p.length ≤ s.length := by
  induction p generalizing s with
  | nil => simp
  | cons a ps ih =>
    cases s with
    | nil => simp [startsWithCI] at h
    | cons c cs =>
      simp only [startsWithCI, Bool.and_eq_true] at h
      have := ih h.2
      simp only [List.length_cons]
      omega

theorem searchCI_suffix_false {pat : List Char} : ∀ {B t : List Char},
    searchCI pat B = false → t <:+ B → t ≠ [] → startsWithCI pat t = false := by
  intro B
  induction B with
  | nil =>
    intro t _ ht hne
    rw [List.suffix_nil.mp ht] at hne
    exact absurd rfl hne
  | cons c cs ih =>
    intro t hB ht hne
    simp only [searchCI, Bool.or_eq_false_iff] at hB
    rcases suffix_cons_cases ht with h | h
    · rw [h]; exact hB.1
    · exact ih hB.2 h hne

theorem startsWithCI_lt_suffix_false {A B ps : List Char}
    (hA : A.all (fun c => c.toLower != '<') = true)
    (hB : ∀ t, t <:+ B → t ≠ [] → startsWithCI ('<' :: ps) t = false) :
    ∀ t, t <:+ (A ++ B) → t ≠ [] → startsWithCI ('<' :: ps) t = false := by
  intro t ht hne
  by_cases hl : t.length ≤ B.length
  · exact hB t (suffix_short_of_append ht hl) hne
  · obtain ⟨ta, hta_ne, hta, hteq⟩ := suffix_split_of_append ht (by omega)
    subst hteq
    cases ta with
    | nil => exact absurd rfl hta_ne
    | cons c ta' =>
      have hc : c ∈ A := hta.sublist.mem (List.mem_cons_self c ta')
      have hcl := List.all_eq_true.mp hA c hc
      simp only [bne_iff_ne, ne_eq] at hcl
      exact startsWithCI_false_head (by
        intro hco
        apply hcl
        rw [hco]
        decide)

/-! ## Consumption bounds for the post-processing matchers -/

theorem afterQuote_lt {u r : List Char} (h : afterQuote u = some r) :
    r.length < u.length := by
  unfold afterQuote at h
  cases hd : u.dropWhile (fun d => d != '"') with
  | nil => rw [hd] at h; simp at h
  | cons d dr =>
    rw [hd] at h
    simp only [Option.some.injEq] at h
    subst h
    have hsub := (List.dropWhile_sublist (l := u) (p := fun d => d != '"')).length_le
    rw [hd] at hsub
    simp only [List.length_cons] at hsub
    omega

theorem spacesLangQuote_lt {t r : List Char} (h : spacesLangQuote t = some r) :
    r.length < t.length := by
  unfold spacesLangQuote at h
  split at h
  · simp at h
  · split at h
    · rename_i hsp _
      have h1 := afterQuote_lt h
      rw [List.length_drop] at h1
      have hsp2 : (t.takeWhile pySpace).length ≤ t.length :=
        (List.takeWhile_sublist _).length_le
      have hspn : (t.takeWhile pySpace).length ≠ 0 := by
        intro h0
        exact hsp (List.eq_nil_of_length_eq_zero h0)
      omega
    · simp at h

theorem langScan_cons (c : Char) (cs : List Char) :
    langScan (c :: cs) =
      match spacesLangQuote (c :: cs) with
      | some rest => some ([], rest)
      | none =>
        if c = '>' then none
        else (langScan cs).map (fun pr => (c :: pr.1, pr.2)) := rfl

theorem langScan_lt : ∀ t m r, langScan t = some (m, r) → r.length < t.length := by
  intro t
  induction t with
  | nil => intro m r h; simp [langScan] at h
  | cons c cs ih =>
    intro m r h
    rw [langScan_cons] at h
    cases hq : spacesLangQuote (c :: cs) with
    | some rest =>
      simp only [hq, Option.some.injEq, Prod.mk.injEq] at h
      rw [← h.2]
      exact spacesLangQuote_lt hq
    | none =>
      simp only [hq] at h
      split at h
      · simp at h
      · cases hl : langScan cs with
        | none => rw [hl] at h; simp at h
        | some pr =>
          rw [hl] at h
          simp only [Option.map_some', Option.some.injEq, Prod.mk.injEq] at h
          have := ih pr.1 pr.2 (by rw [hl])
          rw [← h.2]
          simp only [List.length_cons]
          omega

theorem tryLangStrip_consumes : ∀ s e r, tryLangStrip s = some (e, r) →
    r.length < s.length := by
  intro s e r h
  unfold tryLangStrip at h
  split at h
  · rename_i hb
    cases hl : langScan (s.drop 5) with
    | none => rw [hl] at h; simp at h
    | some pr =>
      rw [hl] at h
      simp only [Option.map_some', Option.some.injEq, Prod.mk.injEq] at h
      have hlt := langScan_lt _ pr.1 pr.2 (by rw [hl])
      rw [List.length_drop] at hlt
      have h5 : 5 ≤ s.length := by
        unfold htmlBAt at hb
        simp only [Bool.and_eq_true] at hb
        have := startsWithCI_length hb.1
        simpa using this
      rw [← h.2]
      omega
  · simp at h

theorem tryHtmlInsert_consumes (ins : List Char) : ∀ s e r,
    tryHtmlInsert ins s = some (e, r) → r.length < s.length := by
  intro s e r h
  unfold tryHtmlInsert at h
  split at h
  · rename_i hb
    split at h
    · rename_i hgt
      simp only [Option.some.injEq, Prod.mk.injEq] at h
      have h5 : 5 ≤ s.length := by
        unfold htmlBAt at hb
        simp only [Bool.and_eq_true] at hb
        have := startsWithCI_length hb.1
        simpa using this
      have hmid : ((s.drop 5).takeWhile (fun d => d != '>')).length < (s.drop 5).length := by
        by_contra hcon
        push_neg at hcon
        have hdp : (s.drop 5).drop ((s.drop 5).takeWhile (fun d => d != '>')).length = [] :=
          List.drop_eq_nil_of_le hcon
        rw [hdp] at hgt
        simp at hgt
      have hr : r = (s.drop 5).drop (((s.drop 5).takeWhile (fun d => d != '>')).length + 1) :=
        h.2.symm
      rw [hr, List.length_drop, List.length_drop]
      rw [List.length_drop] at hmid
      omega
    · simp at h
  · simp at h

theorem dirScanGreedy_cons (prev c : Char) (cs : List Char) :
    dirScanGreedy prev (c :: cs) =
      match (if c = '>' then none
             else (dirScanGreedy c cs).map (fun pr => (c :: pr.1, pr.2))) with
      | some pr => some pr
      | none =>
        if !wordChar prev && startsWithCI "dir=\"".data (c :: cs) then
          (afterQuote ((c :: cs).drop 5)).map (fun r => (([] : List Char), r))
        else none := rfl

theorem dirScanGreedy_lt : ∀ t prev g r, dirScanGreedy prev t = some (g, r) →
    r.length < t.length := by
  intro t
  induction t with
  | nil => intro prev g r h; simp [dirScanGreedy] at h
  | cons c cs ih =>
    intro prev g r h
    rw [dirScanGreedy_cons] at h
    cases hlater : (if c = '>' then none
        else (dirScanGreedy c cs).map (fun pr => (c :: pr.1, pr.2))) with
    | some pr =>
      rw [hlater] at h
      simp only [Option.some.injEq] at h
      by_cases hc : c = '>'
      · rw [if_pos hc] at hlater; simp at hlater
      · rw [if_neg hc] at hlater
        cases hg : dirScanGreedy c cs with
        | none => rw [hg] at hlater; simp at hlater
        | some pr2 =>
          rw [hg] at hlater
          simp only [Option.map_some', Option.some.injEq] at hlater
          have hlt := ih c pr2.1 pr2.2 (by rw [hg])
          have hre : r = pr2.2 := by
            have h2 := hlater.trans h
            exact (congrArg Prod.snd h2).symm
          rw [hre]
          simp only [List.length_cons]
          omega
    | none =>
      rw [hlater] at h
      dsimp only at h
      split at h
      · cases ha : afterQuote ((c :: cs).drop 5) with
        | none => rw [ha] at h; simp at h
        | some rest =>
          rw [ha] at h
          simp only [Option.map_some', Option.some.injEq, Prod.mk.injEq] at h
          have hq := afterQuote_lt ha
          have hre : r = rest := h.2.symm
          rw [hre]
          simp only [List.length_drop, List.length_cons] at hq ⊢
          omega
      · simp at h

theorem tryDirRe_consumes (tl : List Char) : ∀ s e r,
    tryDirRe tl s = some (e, r) → r.length < s.length := by
  intro s e r h
  unfold tryDirRe at h
  split at h
  · rename_i hb
    cases hg : dirScanGreedy (s.getD 4 'l') (s.drop 5) with
    | none => rw [hg] at h; simp at h
    | some pr =>
      rw [hg] at h
      simp only [Option.map_some', Option.some.injEq, Prod.mk.injEq] at h
      have hlt := dirScanGreedy_lt _ _ pr.1 pr.2 (by rw [hg])
      rw [List.length_drop] at hlt
      have h5 : 5 ≤ s.length := by
        unfold htmlBAt at hb
        simp only [Bool.and_eq_true] at hb
        have := startsWithCI_length hb.1
        simpa using this
      rw [← h.2]
      omega
  · simp at h

/-! ## Matcher failure away from `<html` -/

theorem htmlBAt_false_of {t : List Char} (h : startsWithCI "<html".data t = false) :
    htmlBAt t = false := by
  simp [htmlBAt, h]

theorem tryLangStrip_none_of {t : List Char}
    (h : startsWithCI "<html".data t = false) : tryLangStrip t = none := by
  unfold tryLangStrip
  rw [htmlBAt_false_of h]
  simp

theorem tryHtmlInsert_none_of (ins : List Char) {t : List Char}
    (h : startsWithCI "<html".data t = false) : tryHtmlInsert ins t = none := by
  unfold tryHtmlInsert
  rw [htmlBAt_false_of h]
  simp

theorem tryDirRe_none_of (tl : List Char) {t : List Char}
    (h : startsWithCI "<html".data t = false) : tryDirRe tl t = none := by
  unfold tryDirRe
  rw [htmlBAt_false_of h]
  simp

/-! ## Lemmas about attribute-value regions -/

theorem attrChar_facts {c : Char} (h : attrChar c = true) :
    wordChar c = true ∧ pySpace c = false ∧ c ≠ '>' ∧ c ≠ '"' ∧
    c.toLower ≠ '<' ∧ c.toLower ≠ '=' ∧ c.toLower ≠ '"' ∧ c.toLower ≠ '>' := by
  unfold attrChar at h
  simp only [Bool.and_eq_true, Bool.not_eq_true', bne_iff_ne, ne_eq] at h
  obtain ⟨⟨⟨⟨⟨h1, h2⟩, h3⟩, h4⟩, h5⟩, h6⟩ := h
  refine ⟨h1, h2, ?_, ?_, h3, h4, h5, h6⟩
  · intro hc; subst hc; exact h6 rfl
  · intro hc; subst hc; exact h5 rfl

theorem takeWhile_append_of_all {p : Char → Bool} : ∀ (A B : List Char),
    (∀ c ∈ A, p c = true) → (A ++ B).takeWhile p = A ++ B.takeWhile p := by
  intro A
  induction A with
  | nil => intro B _; simp
  | cons a A ih =>
    intro B hA
    simp only [List.cons_append, List.takeWhile_cons]
    rw [hA a (List.mem_cons_self a A)]
    simp only [if_true]
    rw [ih B (fun c hc => hA c (List.mem_cons_of_mem a hc))]

theorem dropWhile_append_of_all {p : Char → Bool} : ∀ (A B : List Char),
    (∀ c ∈ A, p c = true) → (A ++ B).dropWhile p = B.dropWhile p := by
  intro A
  induction A with
  | nil => intro B _; simp
  | cons a A ih =>
    intro B hA
    simp only [List.cons_append, List.dropWhile_cons]
    rw [hA a (List.mem_cons_self a A)]
    simp only [if_true]
    exact ih B (fun c hc => hA c (List.mem_cons_of_mem a hc))

theorem afterQuote_append {v rest : List Char} (hv : ∀ c ∈ v, (c != '"') = true) :
    afterQuote (v ++ '"' :: rest) = some rest := by
  unfold afterQuote
  rw [dropWhile_append_of_all v ('"' :: rest) hv]
  simp [List.dropWhile_cons]

theorem spacesLangQuote_none_head {c : Char} {cs : List Char}
    (h : pySpace c = false) : spacesLangQuote (c :: cs) = none := by
  unfold spacesLangQuote
  rw [if_pos]
  simp [List.takeWhile_cons, h]

theorem langScan_attr_none : ∀ (w rest : List Char), w.all attrChar = true →
    langScan rest = none → langScan (w ++ rest) = none := by
  intro w
  induction w with
  | nil => intro rest _ h; simpa using h
  | cons c w ih =>
    intro rest hw hrest
    simp only [List.all_cons, Bool.and_eq_true] at hw
    obtain ⟨h1, h2, h3, h4, _, _, _, h8⟩ := attrChar_facts hw.1
    rw [List.cons_append, langScan_cons,
      spacesLangQuote_none_head h2]
    rw [if_neg h3]
    rw [ih rest hw.2 hrest]
    rfl

theorem startsWithCI_dirq_false : ∀ (w : List Char) (B : List Char),
    w.all attrChar = true →
    startsWithCI "dir=\"".data (w ++ '"' :: '>' :: B) = false := by
  intro w B hw
  cases w with
  | nil => simp +decide [startsWithCI]
  | cons c0 w1 =>
  cases w1 with
  | nil => simp +decide [startsWithCI]
  | cons c1 w2 =>
  cases w2 with
  | nil => simp +decide [startsWithCI]
  | cons c2 w3 =>
  cases w3 with
  | nil => simp +decide [startsWithCI]
  | cons c3 w4 =>
  simp only [List.all_cons, Bool.and_eq_true] at hw
  have h3 := (attrChar_facts hw.2.2.2.1).2.2.2.2.2.1
  have h3d : decide (c3.toLower = '='.toLower) = false := by
    simp only [decide_eq_false_iff_not]
    intro hcon
    apply h3
    have he : '='.toLower = '=' := by decide
    rw [he] at hcon
    exact hcon
  simp only [List.cons_append, startsWithCI]
  simp [h3d]
  intro _ _ _ hcon
  exact absurd hcon h3

theorem dirScanGreedy_attr_block : ∀ (w : List Char) (B : List Char) (prev : Char),
    w.all attrChar = true →
    dirScanGreedy prev (w ++ '"' :: '>' :: B) = none := by
  intro w
  induction w with
  | nil =>
    intro B prev _
    rw [List.nil_append, dirScanGreedy_cons]
    have hinner : dirScanGreedy '"' ('>' :: B) = none := by
      rw [dirScanGreedy_cons]
      simp +decide [startsWithCI]
    rw [if_neg (by decide), hinner]
    simp only [Option.map_none']
    rw [if_neg]
    simp only [Bool.and_eq_true, not_and]
    intro _
    simp +decide [startsWithCI]
  | cons c w ih =>
    intro B prev hw
    simp only [List.all_cons, Bool.and_eq_true] at hw
    obtain ⟨h1, h2, h3, h4, _, _, _, _⟩ := attrChar_facts hw.1
    rw [List.cons_append, dirScanGreedy_cons, if_neg h3, ih B c hw.2]
    simp only [Option.map_none']
    rw [if_neg]
    simp only [Bool.and_eq_true, not_and]
    intro _
    rw [show (c :: (w ++ '"' :: '>' :: B)) = ((c :: w) ++ '"' :: '>' :: B) from rfl]
    rw [startsWithCI_dirq_false (c :: w) B (by simp [List.all_cons, hw.1, hw.2])]
    simp

theorem dirScanGreedy_step {c : Char} {cs g r : List Char} (prev : Char)
    (hc : ¬ c = '>') (h : dirScanGreedy c cs = some (g, r)) :
    dirScanGreedy prev (c :: cs) = some (c :: g, r) := by
  rw [dirScanGreedy_cons, if_neg hc, h]
  rfl

theorem searchCI_false_of {pat : List Char} : ∀ s,
    (∀ t, t <:+ s → t ≠ [] → startsWithCI pat t = false) → searchCI pat s = false := by
  intro s
  induction s with
  | nil => intro _; rfl
  | cons c cs ih =>
    intro h
    simp only [searchCI, Bool.or_eq_false_iff]
    exact ⟨h (c :: cs) (List.suffix_refl _) (by simp),
           ih (fun t ht hne => h t (ht.trans (List.suffix_cons c cs)) hne)⟩

theorem searchHtmlDir_false_of : ∀ s,
    (∀ t, t <:+ s → t ≠ [] →
      (startsWithCI "<html".data t && dirSearchScan (t.getD 4 'l') (t.drop 5)) = false) →
    searchHtmlDir s = false := by
  intro s
  induction s with
  | nil => intro _; rfl
  | cons c cs ih =>
    intro h
    simp only [searchHtmlDir, Bool.or_eq_false_iff]
    exact ⟨h (c :: cs) (List.suffix_refl _) (by simp),
           ih (fun t ht hne => h t (ht.trans (List.suffix_cons c cs)) hne)⟩

theorem no_html_suffixes {A B : List Char}
    (hA : A.all (fun c => c.toLower != '<') = true)
    (hB : searchCI "<html".data B = false) :
    ∀ t, t <:+ (A ++ B) → t ≠ [] → startsWithCI "<html".data t = false := by
  intro t ht hne
  exact startsWithCI_lt_suffix_false hA
    (fun t2 ht2 hne2 => searchCI_suffix_false hB ht2 hne2) t ht hne

theorem att_none_suffixes_of_eq
    (att : List Char → Option (List Char × List Char)) (S : List Char)
    (c : Char) (A B : List Char) (hS : S = c :: (A ++ B))
    (hwhole : att S = none)
    (hA : A.all (fun ch => ch.toLower != '<') = true)
    (hB : searchCI "<html".data B = false)
    (hnone : ∀ t, startsWithCI "<html".data t = false → att t = none) :
    ∀ t, t <:+ S → t ≠ [] → att t = none := by
  intro t ht hne
  rw [hS] at ht
  rcases suffix_cons_cases ht with h | h
  · rw [h, ← hS]; exact hwhole
  · exact hnone t (no_html_suffixes hA hB t h hne)

theorem scanSub_total (att : List Char → Option (List Char × List Char))
    (hatt : ∀ s e r, att s = some (e, r) → r.length < s.length)
    (s e r : List Char) (hm : att s = some (e, r))
    (hr : ∀ t, t <:+ r → t ≠ [] → att t = none) :
    scanSub att s = e ++ r := by
  rw [scanSub_match att hatt s e r hm, scanSub_id_of_none att r hr]

theorem searchCI_false_of_eq {ps : List Char} (S : List Char)
    (c : Char) (A B : List Char) (hS : S = c :: (A ++ B))
    (hwhole : startsWithCI ('<' :: ps) S = false)
    (hA : A.all (fun ch => ch.toLower != '<') = true)
    (hB : searchCI ('<' :: ps) B = false) :
    searchCI ('<' :: ps) S = false := by
  apply searchCI_false_of
  intro t ht hne
  rw [hS] at ht
  rcases suffix_cons_cases ht with h | h
  · rw [h, ← hS]; exact hwhole
  · exact startsWithCI_lt_suffix_false hA
      (fun t2 ht2 hne2 => searchCI_suffix_false hB ht2 hne2) t h hne

theorem searchHtmlDir_false_of_eq (S : List Char) (c : Char) (A B : List Char)
    (hS : S = c :: (A ++ B))
    (hwhole : (startsWithCI "<html".data S &&
      dirSearchScan (S.getD 4 'l') (S.drop 5)) = false)
    (hA : A.all (fun ch => ch.toLower != '<') = true)
    (hB : searchCI "<html".data B = false) :
    searchHtmlDir S = false := by
  apply searchHtmlDir_false_of
  intro t ht hne
  rw [hS] at ht
  rcases suffix_cons_cases ht with h | h
  · rw [h, ← hS]; exact hwhole
  · rw [no_html_suffixes hA hB t h hne]
    rfl

theorem mem_all_ne_quote {v : List Char} (hv : v.all (fun c => c != '"') = true) :
    ∀ c ∈ v, (c != '"') = true := fun c hc => List.all_eq_true.mp hv c hc

theorem tryLangStrip_strip_match (v B : List Char)
    (hv : v.all (fun c => c != '"') = true) :
    tryLangStrip ("<html lang=\"".data ++ (v ++ ("\">".data ++ B)))
      = some ("<html".data, '>' :: B) := by
  have haq : afterQuote (v ++ '"' :: '>' :: B) = some ('>' :: B) :=
    afterQuote_append (mem_all_ne_quote hv)
  have hsq : spacesLangQuote (' ' :: 'l' :: 'a' :: 'n' :: 'g' :: '=' :: '"' ::
      (v ++ '"' :: '>' :: B)) = some ('>' :: B) := by
    unfold spacesLangQuote
    rw [if_neg (by simp +decide [List.takeWhile_cons])]
    rw [if_pos (by simp +decide [List.takeWhile_cons, startsWithCI])]
    simp +decide [List.takeWhile_cons]
    exact haq
  have hscan : langScan (' ' :: 'l' :: 'a' :: 'n' :: 'g' :: '=' :: '"' ::
      (v ++ '"' :: '>' :: B)) = some ([], '>' :: B) := by
    rw [langScan_cons, hsq]
  show tryLangStrip ('<' :: 'h' :: 't' :: 'm' :: 'l' :: ' ' :: 'l' :: 'a' :: 'n' :: 'g' ::
      '=' :: '"' :: (v ++ '"' :: '>' :: B)) = some ("<html".data, '>' :: B)
  unfold tryLangStrip
  rw [if_pos (by simp +decide [htmlBAt, startsWithCI, wordChar])]
  simp only [List.drop_succ_cons, List.drop_zero]
  rw [hscan]
  rfl

theorem dirScanGreedy_step_none {c : Char} {cs : List Char} (prev : Char)
    (hc : ¬ c = '>') (hinner : dirScanGreedy c cs = none)
    (hhere : (!wordChar prev && startsWithCI "dir=\"".data (c :: cs)) = false) :
    dirScanGreedy prev (c :: cs) = none := by
  rw [dirScanGreedy_cons, if_neg hc, hinner]
  simp only [Option.map_none']
  simp [hhere]

theorem all_toLower_ne_lt_of_attr {L : List Char} (hL : L.all attrChar = true) :
    L.all (fun c => c.toLower != '<') = true := by
  rw [List.all_eq_true] at hL ⊢
  intro c hc
  have h := (attrChar_facts (hL c hc)).2.2.2.2.1
  simpa using h

theorem dirScanGreedy_langattr_none (L B : List Char) (hL : L.all attrChar = true) :
    dirScanGreedy 'l' (' ' :: 'l' :: 'a' :: 'n' :: 'g' :: '=' :: '"' ::
      (L ++ '"' :: '>' :: B)) = none := by
  have s0 := dirScanGreedy_attr_block L B '"' hL
  have s1 := dirScanGreedy_step_none (c := '"') '=' (by decide) s0
    (by simp +decide [startsWithCI])
  have s2 := dirScanGreedy_step_none (c := '=') 'g' (by decide) s1
    (by simp +decide [wordChar])
  have s3 := dirScanGreedy_step_none (c := 'g') 'n' (by decide) s2
    (by simp +decide [wordChar])
  have s4 := dirScanGreedy_step_none (c := 'n') 'a' (by decide) s3
    (by simp +decide [wordChar])
  have s5 := dirScanGreedy_step_none (c := 'a') 'l' (by decide) s4
    (by simp +decide [wordChar])
  have s6 := dirScanGreedy_step_none (c := 'l') ' ' (by decide) s5
    (by simp +decide [startsWithCI])
  exact dirScanGreedy_step_none (c := ' ') 'l' (by decide) s6
    (by simp +decide [wordChar])

theorem postProcess_ltr_replaces_lang (L v B : List Char)
    (hL : L.all attrChar = true)
    (hv : v.all (fun c => c != '"') = true)
    (hrtl : is_rtl L = false)
    (hB1 : searchCI "<html".data B = false)
    (hB2 : searchCI "</head>".data B = false) :
    postProcess L ("<html lang=\"".data ++ (v ++ ("\">".data ++ B)))
      = "<html lang=\"".data ++ (L ++ ("\">".data ++ B)) := by
  have hAdec : ("html lang=\"".data ++ (L ++ "\">".data)).all
      (fun ch => ch.toLower != '<') = true := by
    simp only [List.all_append, Bool.and_eq_true]
    exact ⟨by decide, all_toLower_ne_lt_of_attr hL, by decide⟩
  have hSdec : "<html lang=\"".data ++ (L ++ ("\">".data ++ B))
      = '<' :: (("html lang=\"".data ++ (L ++ "\">".data)) ++ B) := by
    simp only [List.append_assoc]
    rfl
  have h1 : scanSub tryLangStrip ("<html lang=\"".data ++ (v ++ ("\">".data ++ B)))
      = "<html>".data ++ B := by
    have hr : ∀ t, t <:+ ('>' :: B) → t ≠ [] → tryLangStrip t = none := by
      intro t ht hne
      exact tryLangStrip_none_of (no_html_suffixes (A := ['>']) (by decide) hB1 t ht hne)
    rw [scanSub_total tryLangStrip tryLangStrip_consumes _ _ _
      (tryLangStrip_strip_match v B hv) hr]
    rfl
  have h2 : scanSub (tryHtmlInsert (langAttrIns L)) ("<html>".data ++ B)
      = "<html lang=\"".data ++ (L ++ ("\">".data ++ B)) := by
    have hm : tryHtmlInsert (langAttrIns L) ("<html>".data ++ B)
        = some ("<html".data ++ ((langAttrIns L ++ []) ++ ['>']), B) := rfl
    have hr : ∀ t, t <:+ B → t ≠ [] → tryHtmlInsert (langAttrIns L) t = none :=
      fun t ht hne => tryHtmlInsert_none_of _ (searchCI_suffix_false hB1 ht hne)
    rw [scanSub_total _ (tryHtmlInsert_consumes _) _ _ _ hm hr]
    simp only [langAttrIns, List.append_assoc, List.append_nil, List.singleton_append]
    rfl
  have hwhole3 : tryDirRe [] ("<html lang=\"".data ++ (L ++ ("\">".data ++ B))) = none := by
    unfold tryDirRe
    rw [if_pos (by simp +decide [htmlBAt, startsWithCI, wordChar])]
    have hd2 : dirScanGreedy
        (("<html lang=\"".data ++ (L ++ ("\">".data ++ B))).getD 4 'l')
        (("<html lang=\"".data ++ (L ++ ("\">".data ++ B))).drop 5) = none :=
      dirScanGreedy_langattr_none L B hL
    rw [hd2]
    rfl
  have h3 : scanSub (tryDirRe []) ("<html lang=\"".data ++ (L ++ ("\">".data ++ B)))
      = "<html lang=\"".data ++ (L ++ ("\">".data ++ B)) := by
    apply scanSub_id_of_none
    exact att_none_suffixes_of_eq (tryDirRe []) _ '<'
      ("html lang=\"".data ++ (L ++ "\">".data)) B hSdec hwhole3 hAdec hB1
      (fun t ht => tryDirRe_none_of [] ht)
  have h4 : searchCI "</head>".data ("<html lang=\"".data ++ (L ++ ("\">".data ++ B)))
      = false := by
    exact @searchCI_false_of_eq "/head>".data _ '<'
      ("html lang=\"".data ++ (L ++ "\">".data)) B hSdec
      (by simp +decide [startsWithCI]) hAdec hB2
  simp only [postProcess]
  rw [if_pos (show searchHtmlOpen ("<html lang=\"".data ++ (v ++ ("\">".data ++ B)))
    = true from rfl)]
  rw [h1, h2]
  rw [if_neg (show ¬ (is_rtl L = true) by rw [hrtl]; exact Bool.false_ne_true)]
  rw [h3]
  rw [if_neg (show ¬ (searchCI "</head>".data
      ("<html lang=\"".data ++ (L ++ ("\">".data ++ B))) = true) by
    rw [h4]; exact Bool.false_ne_true)]

theorem langScan_step_none {c : Char} {cs : List Char}
    (hsq : spacesLangQuote (c :: cs) = none) (hc : ¬ c = '>')
    (hrest : langScan cs = none) : langScan (c :: cs) = none := by
  rw [langScan_cons, hsq, if_neg hc, hrest]
  rfl

theorem langScan_dirattr_none (w B : List Char) (hw : w.all attrChar = true) :
    langScan (' ' :: 'd' :: 'i' :: 'r' :: '=' :: '"' :: (w ++ '"' :: '>' :: B)) = none := by
  have h0 : langScan ('"' :: '>' :: B) = none := by
    rw [langScan_cons, spacesLangQuote_none_head (by decide), if_neg (by decide),
      langScan_cons, spacesLangQuote_none_head (by decide), if_pos rfl]
    rfl
  have h1 : langScan (w ++ '"' :: '>' :: B) = none := langScan_attr_none w _ hw h0
  have h2 := langScan_step_none (spacesLangQuote_none_head (c := '"') (by decide))
    (by decide) h1
  have h3 := langScan_step_none (spacesLangQuote_none_head (c := '=') (by decide))
    (by decide) h2
  have h4 := langScan_step_none (spacesLangQuote_none_head (c := 'r') (by decide))
    (by decide) h3
  have h5 := langScan_step_none (spacesLangQuote_none_head (c := 'i') (by decide))
    (by decide) h4
  have h6 := langScan_step_none (spacesLangQuote_none_head (c := 'd') (by decide))
    (by decide) h5
  have hsq0 : spacesLangQuote (' ' :: 'd' :: 'i' :: 'r' :: '=' :: '"' ::
      (w ++ '"' :: '>' :: B)) = none := by
    unfold spacesLangQuote
    rw [if_neg (by simp +decide [List.takeWhile_cons])]
    rw [if_neg (by simp +decide [List.takeWhile_cons, startsWithCI])]
  exact langScan_step_none hsq0 (by decide) h6

theorem dirScanGreedy_match_at {c : Char} {cs r : List Char} (prev : Char)
    (hc : ¬ c = '>') (hinner : dirScanGreedy c cs = none)
    (hprev : wordChar prev = false)
    (hstart : startsWithCI "dir=\"".data (c :: cs) = true)
    (haq : afterQuote ((c :: cs).drop 5) = some r) :
    dirScanGreedy prev (c :: cs) = some ([], r) := by
  rw [dirScanGreedy_cons, if_neg hc, hinner]
  simp [hprev, hstart]
  exact haq

theorem dirScanGreedy_walk_some : ∀ (A : List Char) (prev : Char) (rest g r : List Char),
    A.all (fun c => c != '>') = true →
    dirScanGreedy (A.getLastD prev) rest = some (g, r) →
    dirScanGreedy prev (A ++ rest) = some (A ++ g, r) := by
  intro A
  induction A with
  | nil => intro prev rest g r _ h; simpa using h
  | cons a A ih =>
    intro prev rest g r hA h
    simp only [List.all_cons, Bool.and_eq_true] at hA
    have ha : ¬ a = '>' := by simpa using hA.1
    have hstep := ih a rest g r hA.2 (by
      rw [List.getLastD_cons] at h
      exact h)
    rw [List.cons_append, List.cons_append]
    exact dirScanGreedy_step prev ha hstep

theorem getLastD_attr (L : List Char) : ∀ d, (L ++ ['"', ' ']).getLastD d = ' ' := by
  induction L with
  | nil => intro d; rfl
  | cons c L ih =>
    intro d
    rw [List.cons_append, List.getLastD_cons]
    exact ih c

theorem dirScanGreedy_dirmatch (w B : List Char) (hw : w.all attrChar = true) :
    dirScanGreedy ' ' ('d' :: 'i' :: 'r' :: '=' :: '"' :: (w ++ '"' :: '>' :: B))
      = some ([], '>' :: B) := by
  have t0 := dirScanGreedy_attr_block w B '"' hw
  have t1 := dirScanGreedy_step_none (c := '"') '=' (by decide) t0
    (by simp +decide [startsWithCI])
  have t2 := dirScanGreedy_step_none (c := '=') 'r' (by decide) t1
    (by simp +decide [wordChar])
  have t3 := dirScanGreedy_step_none (c := 'r') 'i' (by decide) t2
    (by simp +decide [wordChar])
  have t4 := dirScanGreedy_step_none (c := 'i') 'd' (by decide) t3
    (by simp +decide [wordChar])
  have haq : afterQuote (('d' :: 'i' :: 'r' :: '=' :: '"' ::
      (w ++ '"' :: '>' :: B)).drop 5) = some ('>' :: B) := by
    have hmem : ∀ c ∈ w, (c != '"') = true := by
      intro c hc
      have := (attrChar_facts (List.all_eq_true.mp hw c hc)).2.2.2.1
      simpa using this
    exact afterQuote_append hmem
  exact dirScanGreedy_match_at ' ' (by decide) t4 (by decide)
    (by simp +decide [startsWithCI]) haq

theorem tryHtmlInsert_match_general (ins M B : List Char)
    (hM : ∀ c ∈ M, (c != '>') = true)
    (hbt : htmlBAt ('<' :: 'h' :: 't' :: 'm' :: 'l' :: (M ++ '>' :: B)) = true) :
    tryHtmlInsert ins ('<' :: 'h' :: 't' :: 'm' :: 'l' :: (M ++ '>' :: B))
      = some ("<html".data ++ ins ++ M ++ ['>'], B) := by
  have htw : (M ++ '>' :: B).takeWhile (fun d => d != '>') = M := by
    rw [takeWhile_append_of_all M ('>' :: B) hM]
    simp +decide [List.takeWhile_cons]
  have hdrop : (M ++ '>' :: B).drop M.length = '>' :: B := List.drop_left M ('>' :: B)
  have hdrop2 : (M ++ '>' :: B).drop (M.length + 1) = B := by
    rw [show M ++ '>' :: B = (M ++ ['>']) ++ B by simp,
      show M.length + 1 = (M ++ ['>']).length by simp]
    exact List.drop_left _ _
  unfold tryHtmlInsert
  rw [if_pos hbt]
  simp only [List.drop_succ_cons, List.drop_zero, List.take_succ_cons, List.take_zero]
  rw [htw, hdrop, hdrop2]
  simp

theorem postProcess_ltr_strips_dir (L w B : List Char)
    (hL : L.all attrChar = true)
    (hw : w.all attrChar = true)
    (hrtl : is_rtl L = false)
    (hB1 : searchCI "<html".data B = false)
    (hB2 : searchCI "</head>".data B = false) :
    postProcess L ("<html dir=\"".data ++ (w ++ ("\">".data ++ B)))
      = "<html lang=\"".data ++ (L ++ ("\" >".data ++ B)) := by
  have hwq : ∀ c ∈ w, (c != '>') = true := by
    intro c hc
    simpa using (attrChar_facts (List.all_eq_true.mp hw c hc)).2.2.1
  have hA1dec : ("html dir=\"".data ++ (w ++ "\">".data)).all
      (fun ch => ch.toLower != '<') = true := by
    simp only [List.all_append, Bool.and_eq_true]
    exact ⟨by decide, all_toLower_ne_lt_of_attr hw, by decide⟩
  have hS1dec : "<html dir=\"".data ++ (w ++ ("\">".data ++ B))
      = '<' :: (("html dir=\"".data ++ (w ++ "\">".data)) ++ B) := by
    simp only [List.append_assoc]
    rfl
  have hA3dec : ("html lang=\"".data ++ (L ++ "\" >".data)).all
      (fun ch => ch.toLower != '<') = true := by
    simp only [List.all_append, Bool.and_eq_true]
    exact ⟨by decide, all_toLower_ne_lt_of_attr hL, by decide⟩
  have hS3dec : "<html lang=\"".data ++ (L ++ ("\" >".data ++ B))
      = '<' :: (("html lang=\"".data ++ (L ++ "\" >".data)) ++ B) := by
    simp only [List.append_assoc]
    rfl
  have hwhole1 : tryLangStrip ("<html dir=\"".data ++ (w ++ ("\">".data ++ B))) = none := by
    unfold tryLangStrip
    rw [if_pos (by simp +decide [htmlBAt, startsWithCI, wordChar])]
    have hls : langScan (("<html dir=\"".data ++ (w ++ ("\">".data ++ B))).drop 5)
        = none := langScan_dirattr_none w B hw
    rw [hls]
    rfl
  have h1 : scanSub tryLangStrip ("<html dir=\"".data ++ (w ++ ("\">".data ++ B)))
      = "<html dir=\"".data ++ (w ++ ("\">".data ++ B)) := by
    apply scanSub_id_of_none
    exact att_none_suffixes_of_eq tryLangStrip _ '<'
      ("html dir=\"".data ++ (w ++ "\">".data)) B hS1dec hwhole1 hA1dec hB1
      (fun t ht => tryLangStrip_none_of ht)
  have hMall : ∀ c ∈ (' ' :: 'd' :: 'i' :: 'r' :: '=' :: '"' :: (w ++ ['"'])),
      (c != '>') = true := by
    intro c hc
    simp only [List.mem_cons, List.mem_append, List.not_mem_nil, or_false] at hc
    rcases hc with h | h | h | h | h | h | h
    · subst h; decide
    · subst h; decide
    · subst h; decide
    · subst h; decide
    · subst h; decide
    · subst h; decide
    · rcases h with h | h
      · exact hwq c h
      · subst h; decide
  have heqD : "<html dir=\"".data ++ (w ++ ("\">".data ++ B))
      = '<' :: 'h' :: 't' :: 'm' :: 'l' ::
        ((' ' :: 'd' :: 'i' :: 'r' :: '=' :: '"' :: (w ++ ['"'])) ++ '>' :: B) := by
    simp only [List.append_assoc, List.singleton_append, List.cons_append, List.nil_append]
  have hm2 : tryHtmlInsert (langAttrIns L) ("<html dir=\"".data ++ (w ++ ("\">".data ++ B)))
      = some ("<html".data ++ langAttrIns L ++
          (' ' :: 'd' :: 'i' :: 'r' :: '=' :: '"' :: (w ++ ['"'])) ++ ['>'], B) := by
    rw [heqD]
    exact tryHtmlInsert_match_general (langAttrIns L) _ B hMall
      (by simp +decide [htmlBAt, startsWithCI, wordChar])
  have h2 : scanSub (tryHtmlInsert (langAttrIns L))
      ("<html dir=\"".data ++ (w ++ ("\">".data ++ B)))
      = "<html lang=\"".data ++ (L ++ ("\" dir=\"".data ++ (w ++ ("\">".data ++ B)))) := by
    have hr : ∀ t, t <:+ B → t ≠ [] → tryHtmlInsert (langAttrIns L) t = none :=
      fun t ht hne => tryHtmlInsert_none_of _ (searchCI_suffix_false hB1 ht hne)
    rw [scanSub_total _ (tryHtmlInsert_consumes _) _ _ _ hm2 hr]
    simp only [langAttrIns, List.append_assoc, List.append_nil, List.singleton_append,
      List.cons_append]
    rfl
  have hLne : ∀ c ∈ (' ' :: 'l' :: 'a' :: 'n' :: 'g' :: '=' :: '"' :: (L ++ ['"', ' '])),
      (c != '>') = true := by
    intro c hc
    simp only [List.mem_cons, List.mem_append, List.not_mem_nil, or_false] at hc
    rcases hc with h | h | h | h | h | h | h | h
    · subst h; decide
    · subst h; decide
    · subst h; decide
    · subst h; decide
    · subst h; decide
    · subst h; decide
    · subst h; decide
    · rcases h with h | h | h
      · simpa using (attrChar_facts (List.all_eq_true.mp hL c h)).2.2.1
      · subst h; decide
      · subst h; decide
  have hwalk : dirScanGreedy 'l'
      ((' ' :: 'l' :: 'a' :: 'n' :: 'g' :: '=' :: '"' :: (L ++ ['"', ' '])) ++
        ('d' :: 'i' :: 'r' :: '=' :: '"' :: (w ++ '"' :: '>' :: B)))
      = some ((' ' :: 'l' :: 'a' :: 'n' :: 'g' :: '=' :: '"' :: (L ++ ['"', ' '])) ++ [],
          '>' :: B) := by
    apply dirScanGreedy_walk_some _ 'l' _ [] ('>' :: B)
      (List.all_eq_true.mpr hLne)
    have hlast : ((' ' :: 'l' :: 'a' :: 'n' :: 'g' :: '=' :: '"' ::
        (L ++ ['"', ' '])) : List Char).getLastD 'l' = ' ' := by
      simp only [List.getLastD_cons]
      exact getLastD_attr L '"'
    rw [hlast]
    exact dirScanGreedy_dirmatch w B hw
  have hm3 : tryDirRe []
      ("<html lang=\"".data ++ (L ++ ("\" dir=\"".data ++ (w ++ ("\">".data ++ B)))))
      = some ("<html".data ++
          ((' ' :: 'l' :: 'a' :: 'n' :: 'g' :: '=' :: '"' :: (L ++ ['"', ' '])) ++ []) ++ [],
          '>' :: B) := by
    unfold tryDirRe
    rw [if_pos (by simp +decide [htmlBAt, startsWithCI, wordChar])]
    have hd : dirScanGreedy
        (("<html lang=\"".data ++ (L ++ ("\" dir=\"".data ++ (w ++ ("\">".data ++ B))))).getD 4 'l')
        (("<html lang=\"".data ++ (L ++ ("\" dir=\"".data ++ (w ++ ("\">".data ++ B))))).drop 5)
        = some ((' ' :: 'l' :: 'a' :: 'n' :: 'g' :: '=' :: '"' :: (L ++ ['"', ' '])) ++ [],
            '>' :: B) := by
      have hfrm : ("<html lang=\"".data ++
          (L ++ ("\" dir=\"".data ++ (w ++ ("\">".data ++ B))))).drop 5
          = (' ' :: 'l' :: 'a' :: 'n' :: 'g' :: '=' :: '"' :: (L ++ ['"', ' '])) ++
            ('d' :: 'i' :: 'r' :: '=' :: '"' :: (w ++ '"' :: '>' :: B)) := by
        simp only [List.append_assoc, List.cons_append, List.singleton_append]
        rfl
      rw [hfrm]
      exact hwalk
    rw [hd]
    rfl
  have h3 : scanSub (tryDirRe [])
      ("<html lang=\"".data ++ (L ++ ("\" dir=\"".data ++ (w ++ ("\">".data ++ B)))))
      = "<html lang=\"".data ++ (L ++ ("\" >".data ++ B)) := by
    have hr : ∀ t, t <:+ ('>' :: B) → t ≠ [] → tryDirRe [] t = none := by
      intro t ht hne
      exact tryDirRe_none_of [] (no_html_suffixes (A := ['>']) (by decide) hB1 t ht hne)
    rw [scanSub_total _ (tryDirRe_consumes _) _ _ _ hm3 hr]
    simp only [List.append_assoc, List.append_nil, List.cons_append, List.singleton_append]
    rfl
  have h4 : searchCI "</head>".data ("<html lang=\"".data ++ (L ++ ("\" >".data ++ B)))
      = false := by
    exact @searchCI_false_of_eq "/head>".data _ '<'
      ("html lang=\"".data ++ (L ++ "\" >".data)) B hS3dec
      (by simp +decide [startsWithCI]) hA3dec hB2
  simp only [postProcess]
  rw [if_pos (show searchHtmlOpen ("<html dir=\"".data ++ (w ++ ("\">".data ++ B)))
    = true from rfl)]
  rw [h1, h2]
  rw [if_neg (show ¬ (is_rtl L = true) by rw [hrtl]; exact Bool.false_ne_true)]
  rw [h3]
  rw [if_neg (show ¬ (searchCI "</head>".data
      ("<html lang=\"".data ++ (L ++ ("\" >".data ++ B))) = true) by
    rw [h4]; exact Bool.false_ne_true)]

theorem tryLangStrip_strip_match_gen (v rest : List Char)
    (hv : v.all (fun c => c != '"') = true) :
    tryLangStrip ("<html lang=\"".data ++ (v ++ ('"' :: rest)))
      = some ("<html".data, rest) := by
  have haq : afterQuote (v ++ '"' :: rest) = some rest :=
    afterQuote_append (mem_all_ne_quote hv)
  have hsq : spacesLangQuote (' ' :: 'l' :: 'a' :: 'n' :: 'g' :: '=' :: '"' ::
      (v ++ '"' :: rest)) = some rest := by
    unfold spacesLangQuote
    rw [if_neg (by simp +decide [List.takeWhile_cons])]
    rw [if_pos (by simp +decide [List.takeWhile_cons, startsWithCI])]
    simp +decide [List.takeWhile_cons]
    exact haq
  have hscan : langScan (' ' :: 'l' :: 'a' :: 'n' :: 'g' :: '=' :: '"' ::
      (v ++ '"' :: rest)) = some ([], rest) := by
    rw [langScan_cons, hsq]
  show tryLangStrip ('<' :: 'h' :: 't' :: 'm' :: 'l' :: ' ' :: 'l' :: 'a' :: 'n' :: 'g' ::
      '=' :: '"' :: (v ++ '"' :: rest)) = some ("<html".data, rest)
  unfold tryLangStrip
  rw [if_pos (by simp +decide [htmlBAt, startsWithCI, wordChar])]
  simp only [List.drop_succ_cons, List.drop_zero]
  rw [hscan]
  rfl

theorem postProcess_rtl_replaces_both (v w B : List Char)
    (hv : v.all (fun c => c != '"') = true)
    (hw : w.all attrChar = true)
    (hB1 : searchCI "<html".data B = false)
    (hB2 : searchCI "</head>".data B = false) :
    postProcess "ar".data
      ("<html lang=\"".data ++ (v ++ ("\" dir=\"".data ++ (w ++ ("\">".data ++ B)))))
      = "<html lang=\"ar\" dir=\"rtl\">".data ++ B := by
  have hwq : ∀ c ∈ w, (c != '>') = true := by
    intro c hc
    simpa using (attrChar_facts (List.all_eq_true.mp hw c hc)).2.2.1
  have heqB1 : "<html lang=\"".data ++ (v ++ ("\" dir=\"".data ++ (w ++ ("\">".data ++ B))))
      = "<html lang=\"".data ++ (v ++ ('"' ::
          (' ' :: 'd' :: 'i' :: 'r' :: '=' :: '"' :: (w ++ '"' :: '>' :: B)))) := rfl
  have hm1 : tryLangStrip
      ("<html lang=\"".data ++ (v ++ ("\" dir=\"".data ++ (w ++ ("\">".data ++ B)))))
      = some ("<html".data,
          ' ' :: 'd' :: 'i' :: 'r' :: '=' :: '"' :: (w ++ '"' :: '>' :: B)) := by
    rw [heqB1]
    exact tryLangStrip_strip_match_gen v _ hv
  have hA1dec : (" dir=\"".data ++ (w ++ "\">".data)).all
      (fun ch => ch.toLower != '<') = true := by
    simp only [List.all_append, Bool.and_eq_true]
    exact ⟨by decide, all_toLower_ne_lt_of_attr hw, by decide⟩
  have hrsteq : (' ' :: 'd' :: 'i' :: 'r' :: '=' :: '"' :: (w ++ '"' :: '>' :: B))
      = (" dir=\"".data ++ (w ++ "\">".data)) ++ B := by
    simp only [List.append_assoc, List.cons_append, List.nil_append]
  have hr1 : ∀ t, t <:+ (' ' :: 'd' :: 'i' :: 'r' :: '=' :: '"' :: (w ++ '"' :: '>' :: B)) →
      t ≠ [] → tryLangStrip t = none := by
    intro t ht hne
    rw [hrsteq] at ht
    exact tryLangStrip_none_of (no_html_suffixes hA1dec hB1 t ht hne)
  have h1 : scanSub tryLangStrip
      ("<html lang=\"".data ++ (v ++ ("\" dir=\"".data ++ (w ++ ("\">".data ++ B)))))
      = "<html dir=\"".data ++ (w ++ ("\">".data ++ B)) := by
    rw [scanSub_total tryLangStrip tryLangStrip_consumes _ _ _ hm1 hr1]
    rfl
  have hMall : ∀ c ∈ (' ' :: 'd' :: 'i' :: 'r' :: '=' :: '"' :: (w ++ ['"'])),
      (c != '>') = true := by
    intro c hc
    simp only [List.mem_cons, List.mem_append, List.not_mem_nil, or_false] at hc
    rcases hc with h | h | h | h | h | h | h
    · subst h; decide
    · subst h; decide
    · subst h; decide
    · subst h; decide
    · subst h; decide
    · subst h; decide
    · rcases h with h | h
      · exact hwq c h
      · subst h; decide
  have heqB2 : "<html dir=\"".data ++ (w ++ ("\">".data ++ B))
      = '<' :: 'h' :: 't' :: 'm' :: 'l' ::
        ((' ' :: 'd' :: 'i' :: 'r' :: '=' :: '"' :: (w ++ ['"'])) ++ '>' :: B) := by
    simp only [List.append_assoc, List.singleton_append, List.cons_append, List.nil_append]
  have hm2 : tryHtmlInsert (langAttrIns "ar".data)
      ("<html dir=\"".data ++ (w ++ ("\">".data ++ B)))
      = some ("<html".data ++ langAttrIns "ar".data ++
          (' ' :: 'd' :: 'i' :: 'r' :: '=' :: '"' :: (w ++ ['"'])) ++ ['>'], B) := by
    rw [heqB2]
    exact tryHtmlInsert_match_general (langAttrIns "ar".data) _ B hMall
      (by simp +decide [htmlBAt, startsWithCI, wordChar])
  have h2 : scanSub (tryHtmlInsert (langAttrIns "ar".data))
      ("<html dir=\"".data ++ (w ++ ("\">".data ++ B)))
      = "<html lang=\"ar\" dir=\"".data ++ (w ++ ("\">".data ++ B)) := by
    have hr : ∀ t, t <:+ B → t ≠ [] → tryHtmlInsert (langAttrIns "ar".data) t = none :=
      fun t ht hne => tryHtmlInsert_none_of _ (searchCI_suffix_false hB1 ht hne)
    rw [scanSub_total _ (tryHtmlInsert_consumes _) _ _ _ hm2 hr]
    simp only [langAttrIns, List.append_assoc, List.append_nil, List.singleton_append,
      List.cons_append, List.nil_append]
  have hwalk : dirScanGreedy 'l'
      (" lang=\"ar\" ".data ++ ('d' :: 'i' :: 'r' :: '=' :: '"' :: (w ++ '"' :: '>' :: B)))
      = some (" lang=\"ar\" ".data ++ [], '>' :: B) := by
    apply dirScanGreedy_walk_some _ 'l' _ [] ('>' :: B) (by decide)
    rw [show (" lang=\"ar\" ".data).getLastD 'l' = ' ' by decide]
    exact dirScanGreedy_dirmatch w B hw
  have hm3 : tryDirRe "dir=\"rtl\"".data
      ("<html lang=\"ar\" dir=\"".data ++ (w ++ ("\">".data ++ B)))
      = some ("<html".data ++ (" lang=\"ar\" ".data ++ []) ++ "dir=\"rtl\"".data,
          '>' :: B) := by
    unfold tryDirRe
    rw [if_pos (by simp +decide [htmlBAt, startsWithCI, wordChar])]
    have hd : dirScanGreedy
        (("<html lang=\"ar\" dir=\"".data ++ (w ++ ("\">".data ++ B))).getD 4 'l')
        (("<html lang=\"ar\" dir=\"".data ++ (w ++ ("\">".data ++ B))).drop 5)
        = some (" lang=\"ar\" ".data ++ [], '>' :: B) := by
      have hfrm : ("<html lang=\"ar\" dir=\"".data ++ (w ++ ("\">".data ++ B))).drop 5
          = " lang=\"ar\" ".data ++
            ('d' :: 'i' :: 'r' :: '=' :: '"' :: (w ++ '"' :: '>' :: B)) := rfl
      rw [hfrm]
      exact hwalk
    rw [hd]
    rfl
  have h3 : scanSub (tryDirRe "dir=\"rtl\"".data)
      ("<html lang=\"ar\" dir=\"".data ++ (w ++ ("\">".data ++ B)))
      = "<html lang=\"ar\" dir=\"rtl\">".data ++ B := by
    have hr : ∀ t, t <:+ ('>' :: B) → t ≠ [] → tryDirRe "dir=\"rtl\"".data t = none := by
      intro t ht hne
      exact tryDirRe_none_of _ (no_html_suffixes (A := ['>']) (by decide) hB1 t ht hne)
    rw [scanSub_total _ (tryDirRe_consumes _) _ _ _ hm3 hr]
    rfl
  have h4 : searchCI "</head>".data ("<html lang=\"ar\" dir=\"rtl\">".data ++ B)
      = false := by
    exact @searchCI_false_of_eq "/head>".data _ '<'
      "html lang=\"ar\" dir=\"rtl\">".data B rfl
      (by simp +decide [startsWithCI]) (by decide) hB2
  simp only [postProcess]
  rw [if_pos (show searchHtmlOpen
    ("<html lang=\"".data ++ (v ++ ("\" dir=\"".data ++ (w ++ ("\">".data ++ B)))))
    = true from rfl)]
  rw [h1, h2]
  rw [if_pos (show is_rtl "ar".data = true from rfl)]
  rw [if_pos (show searchHtmlDir
    ("<html lang=\"ar\" dir=\"".data ++ (w ++ ("\">".data ++ B))) = true from rfl)]
  rw [h3]
  rw [if_neg (show ¬ (searchCI "</head>".data
      ("<html lang=\"ar\" dir=\"rtl\">".data ++ B) = true) by
    rw [h4]; exact Bool.false_ne_true)]

theorem postProcess_rtl_inserts_dir (B : List Char)
    (hB1 : searchCI "<html".data B = false)
    (hB2 : searchCI "</head>".data B = false) :
    postProcess "ar".data ("<html>".data ++ B)
      = "<html dir=\"rtl\" lang=\"ar\">".data ++ B := by
  have h1 : scanSub tryLangStrip ("<html>".data ++ B) = "<html>".data ++ B := by
    apply scanSub_id_of_none
    exact att_none_suffixes_of_eq tryLangStrip _ '<' "html>".data B rfl rfl
      (by decide) hB1 (fun t ht => tryLangStrip_none_of ht)
  have hm2 : tryHtmlInsert (langAttrIns "ar".data) ("<html>".data ++ B)
      = some ("<html lang=\"ar\">".data, B) := rfl
  have h2 : scanSub (tryHtmlInsert (langAttrIns "ar".data)) ("<html>".data ++ B)
      = "<html lang=\"ar\">".data ++ B := by
    have hr : ∀ t, t <:+ B → t ≠ [] → tryHtmlInsert (langAttrIns "ar".data) t = none :=
      fun t ht hne => tryHtmlInsert_none_of _ (searchCI_suffix_false hB1 ht hne)
    rw [scanSub_total _ (tryHtmlInsert_consumes _) _ _ _ hm2 hr]
  have hdir : searchHtmlDir ("<html lang=\"ar\">".data ++ B) = false := by
    exact searchHtmlDir_false_of_eq _ '<' "html lang=\"ar\">".data B rfl rfl
      (by decide) hB1
  have hm3 : tryHtmlInsert " dir=\"rtl\"".data ("<html lang=\"ar\">".data ++ B)
      = some ("<html dir=\"rtl\" lang=\"ar\">".data, B) := rfl
  have h3 : scanSub (tryHtmlInsert " dir=\"rtl\"".data) ("<html lang=\"ar\">".data ++ B)
      = "<html dir=\"rtl\" lang=\"ar\">".data ++ B := by
    have hr : ∀ t, t <:+ B → t ≠ [] → tryHtmlInsert " dir=\"rtl\"".data t = none :=
      fun t ht hne => tryHtmlInsert_none_of _ (searchCI_suffix_false hB1 ht hne)
    rw [scanSub_total _ (tryHtmlInsert_consumes _) _ _ _ hm3 hr]
  have h4 : searchCI "</head>".data ("<html dir=\"rtl\" lang=\"ar\">".data ++ B)
      = false := by
    exact @searchCI_false_of_eq "/head>".data _ '<'
      "html dir=\"rtl\" lang=\"ar\">".data B rfl
      (by simp +decide [startsWithCI]) (by decide) hB2
  simp only [postProcess]
  rw [if_pos (show searchHtmlOpen ("<html>".data ++ B) = true from rfl)]
  rw [h1, h2]
  rw [if_pos (show is_rtl "ar".data = true from rfl)]
  rw [if_neg (show ¬ (searchHtmlDir ("<html lang=\"ar\">".data ++ B) = true) by
    rw [hdir]; exact Bool.false_ne_true)]
  rw [h3]
  rw [if_neg (show ¬ (searchCI "</head>".data
      ("<html dir=\"rtl\" lang=\"ar\">".data ++ B) = true) by
    rw [h4]; exact Bool.false_ne_true)]

theorem postProcess_no_html_skips (lang h2 : List Char)
    (hopen : searchHtmlOpen h2 = false) :
    postProcess lang h2 =
      (if searchCI "</head>".data h2 = true then
        replaceFirstCI "</head>".data (metaTag lang ++ "</head>".data) h2
      else h2) := by
  simp only [postProcess]
  rw [if_neg (show ¬ (searchHtmlOpen h2 = true) by
    rw [hopen]; exact Bool.false_ne_true)]

/-- C7 (amended): the post-processing stage of `translate_html_fragment`
(lines 181-196) rewrites the `<html ...>` tag as follows.  For arbitrary tails
`B` containing no further `<html` or `</head>`, an attribute-value language
code `L`, and double-quoted attribute values `v`, `w`: a left-to-right
language replaces an existing double-quoted `lang` attribute and strips an
existing double-quoted `dir` attribute (leaving the Python artefact of a space
before `>`); the right-to-left language `ar` yields `lang="ar" dir="rtl"`,
replacing existing double-quoted `lang` and `dir` attributes or inserting
`dir="rtl"` when absent; and when the document contains no `<html` at all the
lang / dir steps are skipped and only the `</head>` meta-marker step runs.
Only double-quoted attributes are covered: single-quoted ones are not stripped
(see the counterexample). -/
theorem C7_postprocess_lang_dir (L v w B : List Char)
    (hL : L.all attrChar = true)
    (hv : v.all (fun c => c != '"') = true)
    (hw : w.all attrChar = true)
    (hrtl : is_rtl L = false)
    (hB1 : searchCI "<html".data B = false)
    (hB2 : searchCI "</head>".data B = false) :
    (postProcess L ("<html lang=\"".data ++ (v ++ ("\">".data ++ B)))
        = "<html lang=\"".data ++ (L ++ ("\">".data ++ B)))
    ∧ (postProcess L ("<html dir=\"".data ++ (w ++ ("\">".data ++ B)))
        = "<html lang=\"".data ++ (L ++ ("\" >".data ++ B)))
    ∧ (postProcess "ar".data
        ("<html lang=\"".data ++ (v ++ ("\" dir=\"".data ++ (w ++ ("\">".data ++ B)))))
        = "<html lang=\"ar\" dir=\"rtl\">".data ++ B)
    ∧ (postProcess "ar".data ("<html>".data ++ B)
        = "<html dir=\"rtl\" lang=\"ar\">".data ++ B)
    ∧ (∀ lang h2, searchHtmlOpen h2 = false →
        postProcess lang h2 =
          (if searchCI "</head>".data h2 = true then
            replaceFirstCI "</head>".data (metaTag lang ++ "</head>".data) h2
          else h2)) :=
  ⟨postProcess_ltr_replaces_lang L v B hL hv hrtl hB1 hB2,
   postProcess_ltr_strips_dir L w B hL hw hrtl hB1 hB2,
   postProcess_rtl_replaces_both v w B hv hw hB1 hB2,
   postProcess_rtl_inserts_dir B hB1 hB2,
   fun lang h2 hopen => postProcess_no_html_skips lang h2 hopen⟩

theorem C7_postprocess_lang_dir_witness :
    (postProcess "fr".data ("<html lang=\"".data ++ ("de".data ++ ("\">".data ++ "<body></body>".data)))
        = "<html lang=\"".data ++ ("fr".data ++ ("\">".data ++ "<body></body>".data)))
    ∧ (postProcess "ar".data ("<html>".data ++ "<body></body>".data)
        = "<html dir=\"rtl\" lang=\"ar\">".data ++ "<body></body>".data) :=
  ⟨(C7_postprocess_lang_dir "fr".data "de".data "ab".data "<body></body>".data
      (by decide) (by decide) (by decide) (by decide) (by decide) (by decide)).1,
   (C7_postprocess_lang_dir "fr".data "de".data "ab".data "<body></body>".data
      (by decide) (by decide) (by decide) (by decide) (by decide) (by decide)).2.2.2.1⟩

/-- C7 counterexample to the unqualified claim: a single-quoted `lang` attribute
is NOT stripped — the stripping regex demands a double quote — so translating
`<html lang='de'><head></head>` to French leaves `lang='de'` in the output next
to the inserted `lang="fr"`. -/
theorem C7_counterexample :
    translate_html_fragment ⟨false, fun _ _ => none⟩
      "<html lang='de'><head></head>".data "fr".data
      = "<html lang=\"fr\" lang='de'><head><meta name=\"penai-lang\" content=\"fr\"></head>".data
    ∧ "lang='de'".data <:+: translate_html_fragment ⟨false, fun _ _ => none⟩
        "<html lang='de'><head></head>".data "fr".data := by
  constructor <;> decide

theorem loopParts_not_queued (ps : List (List Char)) : ∀ inS inSt pos i,
    (pos + i) ∉ (loopParts inS inSt pos ps).idx →
    (loopParts inS inSt pos ps).out.getD i [] = ps.getD i [] := by
  induction ps with
  | nil => intro inS inSt pos i _; rfl
  | cons p ps ih =>
    intro inS inSt pos i hmem
    unfold loopParts at hmem ⊢
    by_cases hhead : p.head? = some '<'
    · rw [if_pos hhead] at hmem ⊢
      cases i with
      | zero => simp [List.getD]
      | succ k =>
        have harith : pos + (k + 1) = (pos + 1) + k := by omega
        have hmem2 : (pos + 1) + k ∉ (loopParts
            (if is_closing "script".data p = true then false
             else if is_opening "script".data p = true then true else inS)
            (if is_closing "style".data p = true then false
             else if is_opening "style".data p = true then true else inSt)
            (pos + 1) ps).idx := by
          intro hc
          apply hmem
          rw [harith]
          simpa using hc
        simpa [List.getD] using ih _ _ (pos + 1) k hmem2
    · rw [if_neg hhead] at hmem ⊢
      by_cases hctx : (inS || inSt) = true
      · rw [if_pos hctx] at hmem ⊢
        cases i with
        | zero => simp [List.getD]
        | succ k =>
          have harith : pos + (k + 1) = (pos + 1) + k := by omega
          have hmem2 : (pos + 1) + k ∉ (loopParts inS inSt (pos + 1) ps).idx := by
            intro hc
            apply hmem
            rw [harith]
            simpa using hc
          simpa [List.getD] using ih _ _ (pos + 1) k hmem2
      · rw [if_neg hctx] at hmem ⊢
        by_cases hskip : should_skip_text p = true
        · rw [if_pos hskip] at hmem ⊢
          cases i with
          | zero => simp [List.getD]
          | succ k =>
            have harith : pos + (k + 1) = (pos + 1) + k := by omega
            have hmem2 : (pos + 1) + k ∉ (loopParts inS inSt (pos + 1) ps).idx := by
              intro hc
              apply hmem
              rw [harith]
              simpa using hc
            simpa [List.getD] using ih _ _ (pos + 1) k hmem2
        · rw [if_neg hskip] at hmem ⊢
          cases i with
          | zero =>
            exfalso
            apply hmem
            simp
          | succ k =>
            have harith : pos + (k + 1) = (pos + 1) + k := by omega
            have hmem2 : (pos + 1) + k ∉ (loopParts inS inSt (pos + 1) ps).idx := by
              intro hc
              apply hmem
              simp only [List.mem_cons]
              right
              rw [harith]
              simpa using hc
            simpa [List.getD] using ih _ _ (pos + 1) k hmem2

theorem applySplice_length (tr : List (List Char)) :
    ∀ out idxs bbs kbs, (applySplice out idxs bbs kbs tr).length = out.length := by
  induction tr with
  | nil =>
    intro out idxs bbs kbs
    cases idxs with
    | nil => rfl
    | cons j idxs => cases bbs with
      | nil => rfl
      | cons b bbs => cases kbs <;> rfl
  | cons s tr ih =>
    intro out idxs bbs kbs
    cases idxs with
    | nil => rfl
    | cons j idxs =>
      cases bbs with
      | nil => rfl
      | cons b bbs =>
        cases kbs with
        | nil => rfl
        | cons kk kbs =>
          unfold applySplice
          rw [ih]
          exact List.length_set out j _

theorem infix_flatten_of_mem : ∀ (x : List (List Char)) (l : List Char),
    l ∈ x → l <:+: x.flatten := by
  intro x
  induction x with
  | nil => intro l h; simp at h
  | cons a x ih =>
    intro l h
    rcases List.mem_cons.mp h with h | h
    · subst h
      exact ⟨[], x.flatten, by simp⟩
    · exact (ih l h).trans ⟨a, [], by simp⟩

theorem getD_mem_of_lt {l : List (List Char)} {i : Nat} (h : i < l.length) :
    l.getD i [] ∈ l := by
  have he : l.getD i [] = l[i] := by
    simp [List.getD, List.get?_eq_getElem?, List.getElem?_eq_getElem h]
  rw [he]
  exact List.getElem_mem h

/-- C5 counterexample to the unqualified claim: a provider reply that does not
preserve the `__PENBRAND_0__` marker makes the brand token vanish — the
restore step replaces markers, not arbitrary text, so nothing brings the
brand back. -/
theorem C5_counterexample :
    translate_html_fragment ⟨true, fun _ _ => some [some "xyz".data]⟩
      "<p>More House</p>".data "fr".data = "<p>xyz</p>".data ∧
    ¬ "More House".data <:+: translate_html_fragment ⟨true, fun _ _ => some [some "xyz".data]⟩
        "<p>More House</p>".data "fr".data := by
  constructor <;> decide

/-- C5 (amended): brand preservation is guaranteed only for occurrences in
tokens that are never queued for translation (tag tokens, script / style text,
skipped text): such a token survives the splice stage byte-identically, so the
brand substring is an infix of the spliced document, and — provided the
post-processing regexes have nothing to rewrite (no `<html`, no `</head>` in
the spliced document) — of the final output of `translate_html_fragment`.
For queued segments the brand survives only if the provider echoes the
`__PENBRAND_i__` markers back (see the counterexample). -/
theorem C5_brand_preservation_unqueued (env : DeepLEnv) (html lang0 brand : List Char)
    (i : Nat)
    (hi : i < (splitTags html).length)
    (hq : i ∉ (loopParts false false 0 (splitTags html)).idx)
    (hb : brand <:+: (splitTags html).getD i [])
    (h1 : searchHtmlOpen (spliceStage env html (normalise_lang lang0)).flatten = false)
    (h2 : searchCI "</head>".data
      (spliceStage env html (normalise_lang lang0)).flatten = false) :
    brand <:+: (spliceStage env html (normalise_lang lang0)).flatten ∧
    brand <:+: translate_html_fragment env html lang0 := by
  have h0 := loopParts_not_queued (splitTags html) false false 0 i (by simpa using hq)
  have hpass : (spliceStage env html (normalise_lang lang0)).getD i []
      = (splitTags html).getD i [] := by
    simp only [spliceStage]
    split
    · exact h0
    · rw [applySplice_not_mem _ _ _ _ _ i hq]
      exact h0
  have hlen : i < (spliceStage env html (normalise_lang lang0)).length := by
    simp only [spliceStage]
    split
    · rw [loopParts_out_length]; exact hi
    · rw [applySplice_length, loopParts_out_length]; exact hi
  have hmem : (spliceStage env html (normalise_lang lang0)).getD i []
      ∈ spliceStage env html (normalise_lang lang0) := getD_mem_of_lt hlen
  have hinf : brand <:+: (spliceStage env html (normalise_lang lang0)).flatten := by
    have hb2 : brand <:+: (spliceStage env html (normalise_lang lang0)).getD i [] := by
      rw [hpass]
      exact hb
    exact hb2.trans (infix_flatten_of_mem _ _ hmem)
  refine ⟨hinf, ?_⟩
  simp only [translate_html_fragment]
  split
  · have hmem0 : (splitTags html).getD i [] ∈ splitTags html := getD_mem_of_lt hi
    have hfl : brand <:+: (splitTags html).flatten :=
      hb.trans (infix_flatten_of_mem _ _ hmem0)
    have he : (splitTags html).flatten = html :=
      splitTagsF_flatten html.length html (Nat.le_refl _)
    rwa [he] at hfl
  · rw [postProcess_no_html_skips _ _ h1]
    rw [if_neg (by rw [h2]; exact Bool.false_ne_true)]
    exact hinf

theorem C5_brand_preservation_unqueued_witness :
    "More House".data <:+:
      (spliceStage ⟨true, fun _ _ => some [some "xyz".data]⟩
        "<div title=\"More House\">ok</div>".data
        (normalise_lang "fr".data)).flatten ∧
    "More House".data <:+:
      translate_html_fragment ⟨true, fun _ _ => some [some "xyz".data]⟩
        "<div title=\"More House\">ok</div>".data "fr".data :=
  C5_brand_preservation_unqueued ⟨true, fun _ _ => some [some "xyz".data]⟩
    "<div title=\"More House\">ok</div>".data "fr".data "More House".data 1
    (by decide) (by decide) (by decide) (by decide) (by decide)
